import Mathlib

/-!
Verification of the SECEL condition-expression language
(tokenizer, recursive-descent parser, closure-compiling evaluator).

The Lean definitions below are a shallow embedding of the Rust sources:
`src/values.rs` (Value), `src/ast.rs` (AstNode), `src/evaluator.rs`
(build_evaluator and friends), `src/lexer.rs` (Lexer::next_token) and
`src/parser.rs` (Parser).  The opaque exact-decimal number type
(`rust_decimal::Decimal`) is modelled by `Rat`, an exact numeric type
with decidable equality and linear order; the evaluator only ever
compares numbers, so any linearly ordered exact type is a faithful
model.  The `u8` index key is modelled by `Nat`; the lexer enforces the
`parse::<u8>` bound 255 exactly where the source does.

The lexer is a cursor (a position into the character sequence), and the
parser mutates that cursor in place.  Each Lean function takes the input
characters and the current position and returns the resulting position
explicitly.  The parser's recursion (`condition` inside parentheses,
`if` inside expressions) is bounded by a recursion budget (`fuel`)
chosen large enough at the entry point; every unit of nesting consumes
input characters, so a linear budget suffices.
-/

namespace Secel

/-- `src/values.rs`: the three-variant runtime value. -/
inductive Value where
  | Null : Value
  | Bool : Bool → Value
  | Number : Rat → Value
deriving DecidableEq, Repr

/-- `src/ast.rs`: nodes of the abstract syntax tree.  `Number` holds an
index into the caller-supplied environment, not a value. -/
inductive AstNode where
  | And : AstNode → AstNode → AstNode
  | Eq : AstNode → AstNode → AstNode
  | Ge : AstNode → AstNode → AstNode
  | Gt : AstNode → AstNode → AstNode
  | If : AstNode → AstNode → AstNode → AstNode
  | Le : AstNode → AstNode → AstNode
  | Lt : AstNode → AstNode → AstNode
  | Nq : AstNode → AstNode → AstNode
  | Null : AstNode
  | Number : Nat → AstNode
  | Or : AstNode → AstNode → AstNode
deriving DecidableEq, Repr

/-- `src/evaluator.rs`: `IndexedValues`, the caller-supplied mapping from
index keys to values; `HashMap::get` is modelled by an optional lookup. -/
def IndexedValues : Type := Nat → Option Value

/-- `src/evaluator.rs`: the value computed by the closure built by
`build_evaluator`, applied to an environment.  Each arm mirrors the
closure produced by the corresponding `build_*` function. -/
def eval : AstNode → IndexedValues → Value
  | AstNode.And lhs rhs, iv =>
    match eval lhs iv with
    | Value.Bool lhv =>
      match eval rhs iv with
      | Value.Bool rhv => Value.Bool (lhv && rhv)
      | _ => Value.Null
    | _ => Value.Null
  | AstNode.Eq lhs rhs, iv =>
    match eval lhs iv with
    | Value.Number lhv =>
      match eval rhs iv with
      | Value.Number rhv => Value.Bool (lhv = rhv)
      | Value.Null => Value.Bool false
      | _ => Value.Null
    | Value.Null =>
      match eval rhs iv with
      | Value.Number _ => Value.Bool false
      | Value.Null => Value.Bool true
      | _ => Value.Null
    | _ => Value.Null
  | AstNode.Ge lhs rhs, iv =>
    match eval lhs iv with
    | Value.Number lhv =>
      match eval rhs iv with
      | Value.Number rhv => Value.Bool (rhv ≤ lhv)
      | _ => Value.Null
    | _ => Value.Null
  | AstNode.Gt lhs rhs, iv =>
    match eval lhs iv with
    | Value.Number lhv =>
      match eval rhs iv with
      | Value.Number rhv => Value.Bool (rhv < lhv)
      | _ => Value.Null
    | _ => Value.Null
  | AstNode.If mhs lhs rhs, iv =>
    match eval mhs iv with
    | Value.Bool mhv => if mhv then eval lhs iv else eval rhs iv
    | _ => Value.Null
  | AstNode.Le lhs rhs, iv =>
    match eval lhs iv with
    | Value.Number lhv =>
      match eval rhs iv with
      | Value.Number rhv => Value.Bool (lhv ≤ rhv)
      | _ => Value.Null
    | _ => Value.Null
  | AstNode.Lt lhs rhs, iv =>
    match eval lhs iv with
    | Value.Number lhv =>
      match eval rhs iv with
      | Value.Number rhv => Value.Bool (lhv < rhv)
      | _ => Value.Null
    | _ => Value.Null
  | AstNode.Nq lhs rhs, iv =>
    match eval lhs iv with
    | Value.Number lhv =>
      match eval rhs iv with
      | Value.Number rhv => Value.Bool (¬ lhv = rhv)
      | Value.Null => Value.Bool true
      | _ => Value.Null
    | Value.Null =>
      match eval rhs iv with
      | Value.Number _ => Value.Bool true
      | Value.Null => Value.Bool false
      | _ => Value.Null
    | _ => Value.Null
  | AstNode.Null, _ => Value.Null
  | AstNode.Number key, iv =>
    match iv key with
    | some value => value
    | none => Value.Null
  | AstNode.Or lhs rhs, iv =>
    match eval lhs iv with
    | Value.Bool lhv =>
      match eval rhs iv with
      | Value.Bool rhv => Value.Bool (lhv || rhv)
      | _ => Value.Null
    | _ => Value.Null

/-- Whether a runtime value is a boolean. -/
def isBoolV : Value → Bool
  | Value.Bool _ => true
  | _ => false

/-- Whether a runtime value is a number. -/
def isNumberV : Value → Bool
  | Value.Number _ => true
  | _ => false

/-- A concrete environment used by witnesses: slot 1 holds the number 5,
slot 2 holds the boolean true, all other slots are absent. -/
def envW : IndexedValues := fun k =>
  if k = 1 then some (Value.Number 5) else if k = 2 then some (Value.Bool true) else none

/-- `src/lexer.rs`: tokens. `Number` carries the parsed 8-bit index
(modelled as `Nat`; `next_token` enforces the `u8` bound 255). -/
inductive Token where
  | And : Token
  | Eof : Token
  | Eq : Token
  | Ge : Token
  | Gt : Token
  | If : Token
  | Le : Token
  | LeftParen : Token
  | Lt : Token
  | Number : Nat → Token
  | Null : Token
  | Nq : Token
  | Or : Token
  | RightParen : Token
  | Semicolon : Token
  | Undef : Token
deriving DecidableEq, Repr

/-- `src/lexer.rs` `is_whitespace`: `'\u{0009}'..='\u{000D}' | '\u{0020}'`. -/
def isWsCh (c : Char) : Bool :=
  (Char.ofNat 9 ≤ c ∧ c ≤ Char.ofNat 13) ∨ c = ' '

/-- `src/lexer.rs` `is_digit`: ASCII digit. -/
def isDigitCh (c : Char) : Bool :=
  '0' ≤ c ∧ c ≤ '9'

/-- `src/lexer.rs` `is_non_zero_digit`. -/
def isNonZeroDigit (c : Char) : Bool :=
  isDigitCh c && c ≠ '0'

/-- Number of leading whitespace characters of a character list. -/
def wsCount : List Char → Nat
  | [] => 0
  | c :: rest => if isWsCh c then wsCount rest + 1 else 0

/-- `src/lexer.rs` `consume_whitespace`: the position after skipping
leading whitespace from position `p`. -/
def skipWs (cs : List Char) (p : Nat) : Nat :=
  p + wsCount (cs.drop p)

/-- Numeric value of a digit string, accumulator style; models what
`str::parse::<u8>` computes before its range check. -/
def digitsToNatAux (acc : Nat) : List Char → Nat
  | [] => acc
  | c :: rest => digitsToNatAux (acc * 10 + (c.toNat - 48)) rest

/-- Numeric value of a digit string. -/
def digitsToNat (ds : List Char) : Nat :=
  digitsToNatAux 0 ds

/-- `src/lexer.rs` `set_position`: the position is updated only when it
lies inside `[0, input.len())`; otherwise the current position is kept. -/
def setPos (cs : List Char) (cur p : Nat) : Nat :=
  if p < cs.length then p else cur

/-- The fixed-pattern arms of `Lexer::next_token`, applied to the
4-character lookahead window (out-of-bounds characters read as spaces).
Returns the token and the number of characters consumed, or `none` when
no fixed pattern matches.  The arm order is the source order. -/
def fixedTok (c0 c1 c2 c3 : Char) : Option (Token × Nat) :=
  if c0 = 'n' ∧ c1 = 'u' ∧ c2 = 'l' ∧ c3 = 'l' then some (Token.Null, 4)
  else if c0 = 'a' ∧ c1 = 'n' ∧ c2 = 'd' then some (Token.And, 3)
  else if c0 = 'i' ∧ c1 = 'f' then some (Token.If, 2)
  else if c0 = 'o' ∧ c1 = 'r' then some (Token.Or, 2)
  else if c0 = '<' ∧ c1 = '=' then some (Token.Le, 2)
  else if c0 = '>' ∧ c1 = '=' then some (Token.Ge, 2)
  else if c0 = '<' ∧ c1 = '>' then some (Token.Nq, 2)
  else if c0 = '=' then some (Token.Eq, 1)
  else if c0 = '<' then some (Token.Lt, 1)
  else if c0 = '>' then some (Token.Gt, 1)
  else if c0 = ';' then some (Token.Semicolon, 1)
  else if c0 = '(' then some (Token.LeftParen, 1)
  else if c0 = ')' then some (Token.RightParen, 1)
  else none

/-- `src/lexer.rs` `next_token`: skip whitespace, read the padded
4-character window, match the arms in source order; a numeral starting
with a non-zero digit consumes the maximal digit run and yields
`Number` when the run parses as a `u8` (value at most 255) and `Undef`
otherwise; an all-space window is `Eof`; anything else is `Undef`.
Returns the token and the new position. -/
def nextToken (cs : List Char) (p : Nat) : Token × Nat :=
  let q := skipWs cs p
  let c0 := cs.getD q ' '
  let c1 := cs.getD (q + 1) ' '
  let c2 := cs.getD (q + 2) ' '
  let c3 := cs.getD (q + 3) ' '
  match fixedTok c0 c1 c2 c3 with
  | some (t, k) => (t, q + k)
  | none =>
    if isNonZeroDigit c0 then
      let ds := (cs.drop q).takeWhile isDigitCh
      if digitsToNat ds ≤ 255 then (Token.Number (digitsToNat ds), q + ds.length)
      else (Token.Undef, q + ds.length)
    else if c0 = ' ' ∧ c1 = ' ' ∧ c2 = ' ' ∧ c3 = ' ' then (Token.Eof, q)
    else (Token.Undef, q)

/-- Printable form of a token, standing in for the `Debug` formatting
used by the parser's error messages. -/
def tokenRepr : Token → String
  | Token.And => "And"
  | Token.Eof => "Eof"
  | Token.Eq => "Eq"
  | Token.Ge => "Ge"
  | Token.Gt => "Gt"
  | Token.If => "If"
  | Token.Le => "Le"
  | Token.LeftParen => "LeftParen"
  | Token.Lt => "Lt"
  | Token.Number n => "Number " ++ toString n
  | Token.Null => "Null"
  | Token.Nq => "Nq"
  | Token.Or => "Or"
  | Token.RightParen => "RightParen"
  | Token.Semicolon => "Semicolon"
  | Token.Undef => "Undef"

/-- A parse result: the error message or the node, and the lexer
position after the call (the parser mutates the lexer cursor). -/
abbrev PResult := Except String AstNode × Nat

/-- `src/parser.rs` `consume_token`: record the position, read one
token, succeed when it equals the expected token, otherwise restore the
position and fail. -/
def consumeToken (cs : List Char) (p : Nat) (expected : Token) : Except String Unit × Nat :=
  let r := nextToken cs p
  if r.1 = expected then (Except.ok (), r.2)
  else
    (Except.error ("expected token " ++ tokenRepr expected ++ ", actual token " ++ tokenRepr r.1),
      setPos cs r.2 p)

/-- `src/parser.rs` `parse_value`: read one token; `null` and numerals
become leaves, anything else restores the position and fails. -/
def parseValue (cs : List Char) (p : Nat) : PResult :=
  let r := nextToken cs p
  match r.1 with
  | Token.Null => (Except.ok AstNode.Null, r.2)
  | Token.Number n => (Except.ok (AstNode.Number n), r.2)
  | t =>
    (Except.error ("expected null or number but encountered " ++ tokenRepr t), setPos cs r.2 p)

/-- `src/parser.rs` `parse_comparison`: a value, one comparison token,
a value; any other token at the operator slot is a failure (the
position is not restored here — the caller restores it). -/
def parseComparison (cs : List Char) (p : Nat) : PResult :=
  match parseValue cs p with
  | (Except.error e, p1) => (Except.error e, p1)
  | (Except.ok leftOp, p1) =>
    let r := nextToken cs p1
    match parseValue cs r.2 with
    | (Except.error e, p3) => (Except.error e, p3)
    | (Except.ok rightOp, p3) =>
      match r.1 with
      | Token.Eq => (Except.ok (AstNode.Eq leftOp rightOp), p3)
      | Token.Nq => (Except.ok (AstNode.Nq leftOp rightOp), p3)
      | Token.Ge => (Except.ok (AstNode.Ge leftOp rightOp), p3)
      | Token.Gt => (Except.ok (AstNode.Gt leftOp rightOp), p3)
      | Token.Le => (Except.ok (AstNode.Le leftOp rightOp), p3)
      | Token.Lt => (Except.ok (AstNode.Lt leftOp rightOp), p3)
      | t => (Except.error ("expected comparison token, but encountered " ++ tokenRepr t), p3)

/-- Selector for the mutually recursive parser rules, so that the whole
recursive nest is one function that recurses structurally on the fuel.
`condL`/`disjL` are the states of the `while consume_token(Or)` /
`while consume_token(And)` loops after at least one operator has been
consumed, carrying the left-folded node built so far. -/
inductive PRule where
  | ifx : PRule
  | cond : PRule
  | condL : AstNode → PRule
  | disj : PRule
  | disjL : AstNode → PRule
  | conj : PRule
  | expr : PRule

/-- The mutually recursive rules of `src/parser.rs`, dispatched on
`PRule`: `parse_if_expression`, `parse_condition` (with its `or` loop),
`parse_disjunction` (with its `and` loop), `parse_conjunction` and
`parse_expression`.  Runs out of fuel only beyond the entry point's
budget. -/
def parseRun : Nat → PRule → List Char → Nat → PResult
  | 0, _, _, p => (Except.error "fuel", p)
  | n + 1, PRule.ifx, cs, p =>
    (match consumeToken cs p Token.If with
    | (Except.error e, p1) => (Except.error e, p1)
    | (Except.ok _, p1) =>
      match consumeToken cs p1 Token.LeftParen with
      | (Except.error e, p2) => (Except.error e, p2)
      | (Except.ok _, p2) =>
        match parseRun n PRule.cond cs p2 with
        | (Except.error e, p3) => (Except.error e, p3)
        | (Except.ok comparison, p3) =>
          match consumeToken cs p3 Token.Semicolon with
          | (Except.error e, p4) => (Except.error e, p4)
          | (Except.ok _, p4) =>
            match parseRun n PRule.expr cs p4 with
            | (Except.error e, p5) => (Except.error e, p5)
            | (Except.ok leftOp, p5) =>
              match consumeToken cs p5 Token.Semicolon with
              | (Except.error e, p6) => (Except.error e, p6)
              | (Except.ok _, p6) =>
                match parseRun n PRule.expr cs p6 with
                | (Except.error e, p7) => (Except.error e, p7)
                | (Except.ok rightOp, p7) =>
                  match consumeToken cs p7 Token.RightParen with
                  | (Except.error e, p8) => (Except.error e, p8)
                  | (Except.ok _, p8) =>
                    (Except.ok (AstNode.If comparison leftOp rightOp), p8))
  | n + 1, PRule.cond, cs, p =>
    (match parseRun n PRule.disj cs p with
    | (Except.error e, p1) => (Except.error e, p1)
    | (Except.ok leftNode, p1) =>
      match consumeToken cs p1 Token.Or with
      | (Except.error _, p2) => (Except.ok leftNode, setPos cs p2 p1)
      | (Except.ok _, p2) =>
        match parseRun n PRule.disj cs p2 with
        | (Except.error e, p3) => (Except.error e, p3)
        | (Except.ok rightNode, p3) =>
          parseRun n (PRule.condL (AstNode.Or leftNode rightNode)) cs p3)
  | n + 1, PRule.condL leftNode, cs, p =>
    (match consumeToken cs p Token.Or with
    | (Except.error _, p1) => (Except.ok leftNode, p1)
    | (Except.ok _, p1) =>
      match parseRun n PRule.disj cs p1 with
      | (Except.error e, p2) => (Except.error e, p2)
      | (Except.ok rightNode, p2) =>
        parseRun n (PRule.condL (AstNode.Or leftNode rightNode)) cs p2)
  | n + 1, PRule.disj, cs, p =>
    (match parseRun n PRule.conj cs p with
    | (Except.error e, p1) => (Except.error e, p1)
    | (Except.ok leftNode, p1) =>
      match consumeToken cs p1 Token.And with
      | (Except.error _, p2) => (Except.ok leftNode, setPos cs p2 p1)
      | (Except.ok _, p2) =>
        match parseRun n PRule.conj cs p2 with
        | (Except.error e, p3) => (Except.error e, p3)
        | (Except.ok rightNode, p3) =>
          parseRun n (PRule.disjL (AstNode.And leftNode rightNode)) cs p3)
  | n + 1, PRule.disjL leftNode, cs, p =>
    (match consumeToken cs p Token.And with
    | (Except.error _, p1) => (Except.ok leftNode, p1)
    | (Except.ok _, p1) =>
      match parseRun n PRule.conj cs p1 with
      | (Except.error e, p2) => (Except.error e, p2)
      | (Except.ok rightNode, p2) =>
        parseRun n (PRule.disjL (AstNode.And leftNode rightNode)) cs p2)
  | n + 1, PRule.conj, cs, p =>
    (match parseComparison cs p with
    | (Except.ok node, p1) => (Except.ok node, p1)
    | (Except.error _, p1) =>
      let p2 := setPos cs p1 p
      match consumeToken cs p2 Token.LeftParen with
      | (Except.error e, p3) => (Except.error e, p3)
      | (Except.ok _, p3) =>
        match parseRun n PRule.cond cs p3 with
        | (Except.error e, p4) => (Except.error e, p4)
        | (Except.ok node, p4) =>
          match consumeToken cs p4 Token.RightParen with
          | (Except.error e, p5) => (Except.error e, p5)
          | (Except.ok _, p5) => (Except.ok node, p5))
  | n + 1, PRule.expr, cs, p =>
    (match parseValue cs p with
    | (Except.ok node, p1) => (Except.ok node, p1)
    | (Except.error _, p1) =>
      let p2 := setPos cs p1 p
      match parseRun n PRule.ifx cs p2 with
      | (Except.ok node, p3) => (Except.ok node, p3)
      | (Except.error _, p3) =>
        (Except.error "expected value or if expression", setPos cs p3 p))

/-- `src/parser.rs` `parse_if_expression`. -/
def parseIfExpression (n : Nat) (cs : List Char) (p : Nat) : PResult :=
  parseRun n PRule.ifx cs p

/-- `src/parser.rs` `parse_condition`. -/
def parseCondition (n : Nat) (cs : List Char) (p : Nat) : PResult :=
  parseRun n PRule.cond cs p

/-- `src/parser.rs` `parse_disjunction`. -/
def parseDisjunction (n : Nat) (cs : List Char) (p : Nat) : PResult :=
  parseRun n PRule.disj cs p

/-- `src/parser.rs` `parse_conjunction`. -/
def parseConjunction (n : Nat) (cs : List Char) (p : Nat) : PResult :=
  parseRun n PRule.conj cs p

/-- `src/parser.rs` `parse_expression`. -/
def parseExpression (n : Nat) (cs : List Char) (p : Nat) : PResult :=
  parseRun n PRule.expr cs p

/-- `src/parser.rs` `parse_statement`: one `if` expression; the
remaining input is not checked. -/
def parseStatement (n : Nat) (cs : List Char) (p : Nat) : PResult :=
  parseIfExpression n cs p

/-- Recursion budget for the entry point: every recursion step of the
grammar consumes input, so a linear budget is sufficient. -/
def parseFuel (cs : List Char) : Nat :=
  4 * cs.length + 16

/-- `src/parser.rs` `Parser::parse`: parse one statement from
position 0 over the characters of the input text. -/
def parse (cs : List Char) : Except String AstNode :=
  (parseStatement (parseFuel cs) cs 0).1

/-- Tokens whose lexing is decided entirely by the characters they
consume: appending further input never changes such a read.  `Lt`, `Gt`
and `Number` are excluded because a longer input can extend them
(`<` to `<=`, a digit run by more digits); `Eof` and `Undef` are
excluded because appended input can make a token appear. -/
def stableTok : Token → Bool
  | Token.Null => true
  | Token.And => true
  | Token.If => true
  | Token.Or => true
  | Token.Le => true
  | Token.Ge => true
  | Token.Nq => true
  | Token.Eq => true
  | Token.Semicolon => true
  | Token.LeftParen => true
  | Token.RightParen => true
  | _ => false

/-- The token read at `p` is unchanged by appending `r`, and is not
`Eof` (so in particular the read starts strictly inside the input). -/
def SafeAt (cs r : List Char) (p : Nat) : Prop :=
  nextToken (cs ++ r) p = nextToken cs p ∧ (nextToken cs p).1 ≠ Token.Eof

end Secel

namespace Secel

/-! ## Helper lemmas about the lexer -/

/-- No fixed-pattern arm matches when the first window character is a
non-zero digit: the numeral arm of `next_token` is reached. -/
theorem fixedTok_none_of_digit (c0 c1 c2 c3 : Char) (hd : isNonZeroDigit c0 = true) :
    fixedTok c0 c1 c2 c3 = none := by
  have hdig : isDigitCh c0 = true := by
    cases hb : isDigitCh c0 with
    | true => rfl
    | false =>
      unfold isNonZeroDigit at hd
      rw [hb, Bool.false_and] at hd
      exact absurd hd (by decide)
  have hne : ∀ c : Char, isDigitCh c = false → ¬ c0 = c := by
    intro c hc he
    rw [he] at hdig
    rw [hdig] at hc
    exact absurd hc (by decide)
  unfold fixedTok
  rw [if_neg (fun h => hne 'n' (by decide) h.1),
    if_neg (fun h => hne 'a' (by decide) h.1),
    if_neg (fun h => hne 'i' (by decide) h.1),
    if_neg (fun h => hne 'o' (by decide) h.1),
    if_neg (fun h => hne '<' (by decide) h.1),
    if_neg (fun h => hne '>' (by decide) h.1),
    if_neg (fun h => hne '<' (by decide) h.1),
    if_neg (hne '=' (by decide)),
    if_neg (hne '<' (by decide)),
    if_neg (hne '>' (by decide)),
    if_neg (hne ';' (by decide)),
    if_neg (hne '(' (by decide)),
    if_neg (hne ')' (by decide))]

/-! ## C1 — C4, C10: evaluator semantics -/

/-- C1: the evaluator built from `And`/`Or` returns the boolean
conjunction/disjunction when both operands evaluate to booleans, and
`Null` whenever either operand evaluates to a non-boolean value, even
when the other operand alone would determine the logical result. -/
theorem and_or_semantics (a b : AstNode) (iv : IndexedValues) :
    (∀ x y, eval a iv = Value.Bool x → eval b iv = Value.Bool y →
      eval (AstNode.And a b) iv = Value.Bool (x && y) ∧
      eval (AstNode.Or a b) iv = Value.Bool (x || y)) ∧
    (isBoolV (eval a iv) = false ∨ isBoolV (eval b iv) = false →
      eval (AstNode.And a b) iv = Value.Null ∧
      eval (AstNode.Or a b) iv = Value.Null) := by
  constructor
  · intro x y ha hb
    constructor <;> simp [eval, ha, hb]
  · intro h
    cases ha : eval a iv <;> cases hb : eval b iv <;>
      simp [eval, ha, hb] <;> simp [isBoolV, ha, hb] at h

/-- Witness for C1 at concrete inputs: `And` of a number-valued operand
with a boolean-valued operand is `Null`, and `Or` of two booleans is
their disjunction. -/
theorem and_or_semantics_witness :
    eval (AstNode.And (AstNode.Number 1) (AstNode.Number 2)) envW = Value.Null ∧
    eval (AstNode.Or (AstNode.Number 2) (AstNode.Number 2)) envW = Value.Bool true := by
  constructor
  · exact ((and_or_semantics (AstNode.Number 1) (AstNode.Number 2) envW).2
      (Or.inl (by decide))).1
  · exact (((and_or_semantics (AstNode.Number 2) (AstNode.Number 2) envW).1
      true true (by decide) (by decide)).2).trans (by decide)

/-- C2: the evaluator built from `If` returns the then-branch value when
the condition evaluates to `Bool true`, the else-branch value when it
evaluates to `Bool false`, and `Null` when the condition evaluates to a
non-boolean value. -/
theorem if_semantics (c t e : AstNode) (iv : IndexedValues) :
    (eval c iv = Value.Bool true → eval (AstNode.If c t e) iv = eval t iv) ∧
    (eval c iv = Value.Bool false → eval (AstNode.If c t e) iv = eval e iv) ∧
    (isBoolV (eval c iv) = false → eval (AstNode.If c t e) iv = Value.Null) := by
  refine ⟨fun h => ?_, fun h => ?_, fun h => ?_⟩
  · simp [eval, h]
  · simp [eval, h]
  · cases hc : eval c iv <;> simp [eval, hc] <;> simp [isBoolV, hc] at h

/-- Witness for C2 at concrete inputs: a `Null` condition yields `Null`,
a true condition yields the then-branch. -/
theorem if_semantics_witness :
    eval (AstNode.If AstNode.Null (AstNode.Number 1) (AstNode.Number 2)) envW = Value.Null ∧
    eval (AstNode.If (AstNode.Eq (AstNode.Number 1) (AstNode.Number 1))
      (AstNode.Number 1) AstNode.Null) envW = Value.Number 5 := by
  constructor
  · exact (if_semantics AstNode.Null (AstNode.Number 1) (AstNode.Number 2) envW).2.2 (by decide)
  · exact ((if_semantics (AstNode.Eq (AstNode.Number 1) (AstNode.Number 1))
      (AstNode.Number 1) AstNode.Null envW).1 (by decide)).trans (by decide)

/-- C3: the evaluator built from `Eq`/`Nq` implements three-valued
equality: number-number compares exactly, null equals null, a
number-null mix is unequal, and any boolean operand poisons the result
to `Null`. -/
theorem eq_nq_semantics (a b : AstNode) (iv : IndexedValues) :
    (∀ x y, eval a iv = Value.Number x → eval b iv = Value.Number y →
      eval (AstNode.Eq a b) iv = Value.Bool (decide (x = y)) ∧
      eval (AstNode.Nq a b) iv = Value.Bool (decide (¬ x = y))) ∧
    (eval a iv = Value.Null → eval b iv = Value.Null →
      eval (AstNode.Eq a b) iv = Value.Bool true ∧
      eval (AstNode.Nq a b) iv = Value.Bool false) ∧
    (isNumberV (eval a iv) = true → eval b iv = Value.Null →
      eval (AstNode.Eq a b) iv = Value.Bool false ∧
      eval (AstNode.Nq a b) iv = Value.Bool true) ∧
    (eval a iv = Value.Null → isNumberV (eval b iv) = true →
      eval (AstNode.Eq a b) iv = Value.Bool false ∧
      eval (AstNode.Nq a b) iv = Value.Bool true) ∧
    (isBoolV (eval a iv) = true ∨ isBoolV (eval b iv) = true →
      eval (AstNode.Eq a b) iv = Value.Null ∧
      eval (AstNode.Nq a b) iv = Value.Null) := by
  refine ⟨fun x y ha hb => ?_, fun ha hb => ?_, fun ha hb => ?_, fun ha hb => ?_, fun h => ?_⟩
  · constructor <;> simp [eval, ha, hb]
  · constructor <;> simp [eval, ha, hb]
  · cases hav : eval a iv <;> simp [isNumberV, hav] at ha <;>
      constructor <;> simp [eval, hav, hb]
  · cases hbv : eval b iv <;> simp [isNumberV, hbv] at hb <;>
      constructor <;> simp [eval, ha, hbv]
  · cases hav : eval a iv <;> cases hbv : eval b iv <;>
      simp [isBoolV, hav, hbv] at h <;> constructor <;> simp [eval, hav, hbv]

/-- Witness for C3 at concrete inputs: `Eq(Null, Null)` is true,
`Eq(Number 1, Null)` is false with slot 1 holding a number, and a
boolean operand poisons `Eq` to `Null`. -/
theorem eq_nq_semantics_witness :
    eval (AstNode.Eq AstNode.Null AstNode.Null) envW = Value.Bool true ∧
    eval (AstNode.Eq (AstNode.Number 1) AstNode.Null) envW = Value.Bool false ∧
    eval (AstNode.Eq (AstNode.Number 2) AstNode.Null) envW = Value.Null := by
  refine ⟨?_, ?_, ?_⟩
  · exact ((eq_nq_semantics AstNode.Null AstNode.Null envW).2.1 (by decide) (by decide)).1
  · exact ((eq_nq_semantics (AstNode.Number 1) AstNode.Null envW).2.2.1
      (by decide) (by decide)).1
  · exact ((eq_nq_semantics (AstNode.Number 2) AstNode.Null envW).2.2.2.2
      (Or.inl (by decide))).1

/-- C4: the evaluators built from `Ge`, `Gt`, `Le`, `Lt` return the exact
numeric comparison when both operands evaluate to numbers and `Null` in
every other case; in particular a comparison whose operand reads an
absent slot returns `Null`. -/
theorem ord_semantics (a b : AstNode) (iv : IndexedValues) :
    (∀ x y, eval a iv = Value.Number x → eval b iv = Value.Number y →
      eval (AstNode.Ge a b) iv = Value.Bool (decide (x ≥ y)) ∧
      eval (AstNode.Gt a b) iv = Value.Bool (decide (x > y)) ∧
      eval (AstNode.Le a b) iv = Value.Bool (decide (x ≤ y)) ∧
      eval (AstNode.Lt a b) iv = Value.Bool (decide (x < y))) ∧
    (isNumberV (eval a iv) = false ∨ isNumberV (eval b iv) = false →
      eval (AstNode.Ge a b) iv = Value.Null ∧
      eval (AstNode.Gt a b) iv = Value.Null ∧
      eval (AstNode.Le a b) iv = Value.Null ∧
      eval (AstNode.Lt a b) iv = Value.Null) ∧
    (∀ k j, iv k = none →
      eval (AstNode.Gt (AstNode.Number k) (AstNode.Number j)) iv = Value.Null) := by
  refine ⟨fun x y ha hb => ?_, fun h => ?_, fun k j hk => ?_⟩
  · refine ⟨?_, ?_, ?_, ?_⟩ <;> simp [eval, ha, hb]
  · cases hav : eval a iv <;> cases hbv : eval b iv <;>
      simp [isNumberV, hav, hbv] at h <;>
      refine ⟨?_, ?_, ?_, ?_⟩ <;> simp [eval, hav, hbv]
  · simp [eval, hk]

/-- Witness for C4 at concrete inputs: `Gt(Number 3, Number 1)` with
slot 3 absent is `Null`, and `Lt` of two present numbers compares them. -/
theorem ord_semantics_witness :
    eval (AstNode.Gt (AstNode.Number 3) (AstNode.Number 1)) envW = Value.Null ∧
    eval (AstNode.Lt (AstNode.Number 1) (AstNode.Number 1)) envW = Value.Bool false := by
  constructor
  · exact (ord_semantics (AstNode.Number 3) (AstNode.Number 1) envW).2.2 3 1 (by decide)
  · exact (((ord_semantics (AstNode.Number 1) (AstNode.Number 1) envW).1
      5 5 (by decide) (by decide)).2.2.2).trans (by decide)

/-- C10: `Nq` is the pointwise boolean complement of `Eq` and agrees with
it on `Null`: the `Nq` evaluator returns `Bool (not x)` exactly when the
`Eq` evaluator returns `Bool x`, and returns `Null` exactly when the `Eq`
evaluator does. -/
theorem nq_complements_eq (a b : AstNode) (iv : IndexedValues) :
    (∀ x, eval (AstNode.Eq a b) iv = Value.Bool x ↔
      eval (AstNode.Nq a b) iv = Value.Bool (! x)) ∧
    (eval (AstNode.Eq a b) iv = Value.Null ↔
      eval (AstNode.Nq a b) iv = Value.Null) := by
  constructor
  · intro x
    cases hav : eval a iv <;> cases hbv : eval b iv <;>
      cases x <;> simp [eval, hav, hbv]
  · cases hav : eval a iv <;> cases hbv : eval b iv <;> simp [eval, hav, hbv]

/-- Witness for C10 at concrete inputs: with slot 1 holding the number 5,
`Eq(Number 1, Number 1)` is `Bool true` and `Nq(Number 1, Number 1)` is
`Bool false`. -/
theorem nq_complements_eq_witness :
    eval (AstNode.Nq (AstNode.Number 1) (AstNode.Number 1)) envW = Value.Bool false := by
  exact ((nq_complements_eq (AstNode.Number 1) (AstNode.Number 1) envW).1 true).mp (by decide)

/-! ## C6: rejected numerals are consumed -/

/-- C6 counterexample: on the input `256` the lexer returns `Undef`, but
the cursor is advanced to position 3 — past the whole digit run — not
left unchanged at position 0 as the claim states. -/
theorem overflow_numeral_consumes_counterexample :
    nextToken ['2', '5', '6'] 0 = (Token.Undef, 3) ∧ (3 : Nat) ≠ 0 := by
  constructor
  · rfl
  · decide

/-- C6 amended: when the character at the cursor (after whitespace
skipping) is a non-zero ASCII digit and the maximal digit run does not
parse as an 8-bit index (value over 255), `next_token` returns `Undef`
and the position is advanced past the skipped whitespace and the whole
digit run (the digits are consumed even though the numeral is rejected). -/
theorem overflow_numeral_yields_undef (cs : List Char) (p : Nat)
    (hd : isNonZeroDigit (cs.getD (skipWs cs p) ' ') = true)
    (hov : 255 < digitsToNat ((cs.drop (skipWs cs p)).takeWhile isDigitCh)) :
    nextToken cs p =
      (Token.Undef, skipWs cs p + ((cs.drop (skipWs cs p)).takeWhile isDigitCh).length) := by
  simp only [nextToken]
  rw [fixedTok_none_of_digit _ _ _ _ hd]
  simp only [hd, if_true]
  rw [if_neg (by omega)]

/-- Witness for the amended C6 at the concrete input `256`. -/
theorem overflow_numeral_yields_undef_witness :
    nextToken ['2', '5', '6'] 0 = (Token.Undef, 3) := by
  have h := overflow_numeral_yields_undef ['2', '5', '6'] 0 (by decide) (by decide)
  exact h.trans (by decide)

/-! ## Unfolding equations for the fueled parser rules -/

theorem parseIfExpression_zero (cs : List Char) (p : Nat) :
    parseIfExpression 0 cs p = (Except.error "fuel", p) := rfl

theorem parseIfExpression_succ (n : Nat) (cs : List Char) (p : Nat) :
    parseIfExpression (n + 1) cs p =
      (match consumeToken cs p Token.If with
      | (Except.error e, p1) => (Except.error e, p1)
      | (Except.ok _, p1) =>
        match consumeToken cs p1 Token.LeftParen with
        | (Except.error e, p2) => (Except.error e, p2)
        | (Except.ok _, p2) =>
          match parseCondition n cs p2 with
          | (Except.error e, p3) => (Except.error e, p3)
          | (Except.ok comparison, p3) =>
            match consumeToken cs p3 Token.Semicolon with
            | (Except.error e, p4) => (Except.error e, p4)
            | (Except.ok _, p4) =>
              match parseExpression n cs p4 with
              | (Except.error e, p5) => (Except.error e, p5)
              | (Except.ok leftOp, p5) =>
                match consumeToken cs p5 Token.Semicolon with
                | (Except.error e, p6) => (Except.error e, p6)
                | (Except.ok _, p6) =>
                  match parseExpression n cs p6 with
                  | (Except.error e, p7) => (Except.error e, p7)
                  | (Except.ok rightOp, p7) =>
                    match consumeToken cs p7 Token.RightParen with
                    | (Except.error e, p8) => (Except.error e, p8)
                    | (Except.ok _, p8) =>
                      (Except.ok (AstNode.If comparison leftOp rightOp), p8)) := rfl

theorem parseCondition_zero (cs : List Char) (p : Nat) :
    parseCondition 0 cs p = (Except.error "fuel", p) := rfl

theorem parseCondition_succ (n : Nat) (cs : List Char) (p : Nat) :
    parseCondition (n + 1) cs p =
      (match parseDisjunction n cs p with
      | (Except.error e, p1) => (Except.error e, p1)
      | (Except.ok leftNode, p1) =>
        match consumeToken cs p1 Token.Or with
        | (Except.error _, p2) => (Except.ok leftNode, setPos cs p2 p1)
        | (Except.ok _, p2) =>
          match parseDisjunction n cs p2 with
          | (Except.error e, p3) => (Except.error e, p3)
          | (Except.ok rightNode, p3) =>
            parseRun n (PRule.condL (AstNode.Or leftNode rightNode)) cs p3) := rfl

theorem condL_zero (a : AstNode) (cs : List Char) (p : Nat) :
    parseRun 0 (PRule.condL a) cs p = (Except.error "fuel", p) := rfl

theorem condL_succ (n : Nat) (a : AstNode) (cs : List Char) (p : Nat) :
    parseRun (n + 1) (PRule.condL a) cs p =
      (match consumeToken cs p Token.Or with
      | (Except.error _, p1) => (Except.ok a, p1)
      | (Except.ok _, p1) =>
        match parseDisjunction n cs p1 with
        | (Except.error e, p2) => (Except.error e, p2)
        | (Except.ok rightNode, p2) =>
          parseRun n (PRule.condL (AstNode.Or a rightNode)) cs p2) := rfl

theorem parseDisjunction_zero (cs : List Char) (p : Nat) :
    parseDisjunction 0 cs p = (Except.error "fuel", p) := rfl

theorem parseDisjunction_succ (n : Nat) (cs : List Char) (p : Nat) :
    parseDisjunction (n + 1) cs p =
      (match parseConjunction n cs p with
      | (Except.error e, p1) => (Except.error e, p1)
      | (Except.ok leftNode, p1) =>
        match consumeToken cs p1 Token.And with
        | (Except.error _, p2) => (Except.ok leftNode, setPos cs p2 p1)
        | (Except.ok _, p2) =>
          match parseConjunction n cs p2 with
          | (Except.error e, p3) => (Except.error e, p3)
          | (Except.ok rightNode, p3) =>
            parseRun n (PRule.disjL (AstNode.And leftNode rightNode)) cs p3) := rfl

theorem disjL_zero (a : AstNode) (cs : List Char) (p : Nat) :
    parseRun 0 (PRule.disjL a) cs p = (Except.error "fuel", p) := rfl

theorem disjL_succ (n : Nat) (a : AstNode) (cs : List Char) (p : Nat) :
    parseRun (n + 1) (PRule.disjL a) cs p =
      (match consumeToken cs p Token.And with
      | (Except.error _, p1) => (Except.ok a, p1)
      | (Except.ok _, p1) =>
        match parseConjunction n cs p1 with
        | (Except.error e, p2) => (Except.error e, p2)
        | (Except.ok rightNode, p2) =>
          parseRun n (PRule.disjL (AstNode.And a rightNode)) cs p2) := rfl

theorem parseConjunction_zero (cs : List Char) (p : Nat) :
    parseConjunction 0 cs p = (Except.error "fuel", p) := rfl

theorem parseConjunction_succ (n : Nat) (cs : List Char) (p : Nat) :
    parseConjunction (n + 1) cs p =
      (match parseComparison cs p with
      | (Except.ok node, p1) => (Except.ok node, p1)
      | (Except.error _, p1) =>
        match consumeToken cs (setPos cs p1 p) Token.LeftParen with
        | (Except.error e, p3) => (Except.error e, p3)
        | (Except.ok _, p3) =>
          match parseCondition n cs p3 with
          | (Except.error e, p4) => (Except.error e, p4)
          | (Except.ok node, p4) =>
            match consumeToken cs p4 Token.RightParen with
            | (Except.error e, p5) => (Except.error e, p5)
            | (Except.ok _, p5) => (Except.ok node, p5)) := rfl

theorem parseExpression_zero (cs : List Char) (p : Nat) :
    parseExpression 0 cs p = (Except.error "fuel", p) := rfl

theorem parseExpression_succ (n : Nat) (cs : List Char) (p : Nat) :
    parseExpression (n + 1) cs p =
      (match parseValue cs p with
      | (Except.ok node, p1) => (Except.ok node, p1)
      | (Except.error _, p1) =>
        match parseIfExpression n cs (setPos cs p1 p) with
        | (Except.ok node, p3) => (Except.ok node, p3)
        | (Except.error _, p3) =>
          (Except.error "expected value or if expression", setPos cs p3 p)) := rfl

/-! ## Position-restoring helper lemmas -/

/-- Reading at or past the end of the input returns `Eof` without
moving the cursor. -/
theorem nextToken_at_end (cs : List Char) (p : Nat) (h : cs.length ≤ p) :
    nextToken cs p = (Token.Eof, p) := by
  have hq : skipWs cs p = p := by
    unfold skipWs
    rw [List.drop_eq_nil_of_le h]
    rfl
  simp only [nextToken, hq]
  rw [List.getD_eq_default cs ' ' h, List.getD_eq_default cs ' ' (by omega),
    List.getD_eq_default cs ' ' (by omega), List.getD_eq_default cs ' ' (by omega)]
  rfl

theorem setPos_self (cs : List Char) (p : Nat) : setPos cs p p = p := by
  unfold setPos
  split <;> rfl

/-- `set_position` back to the saved position really restores it: when
the saved position is clamped away (at or past the end), the current
position is already the saved one. -/
theorem setPos_back (cs : List Char) (p p1 : Nat) (hp1 : cs.length ≤ p → p1 = p) :
    setPos cs p1 p = p := by
  unfold setPos
  by_cases hp : p < cs.length
  · rw [if_pos hp]
  · rw [if_neg hp, hp1 (le_of_not_lt hp)]

/-- Restoring the pre-read position after any single token read
succeeds for every position. -/
theorem setPos_after_read (cs : List Char) (p : Nat) :
    setPos cs (nextToken cs p).2 p = p := by
  apply setPos_back
  intro h
  rw [nextToken_at_end cs p h]

/-- `consume_token` restores the entry position on failure. -/
theorem consumeToken_restore (cs : List Char) (p : Nat) (e : Token) (m : String) (p2 : Nat)
    (h : consumeToken cs p e = (Except.error m, p2)) : p2 = p := by
  simp only [consumeToken] at h
  by_cases hc : (nextToken cs p).1 = e
  · rw [if_pos hc] at h
    exact absurd (congrArg Prod.fst h) (by simp)
  · rw [if_neg hc] at h
    have h2 := congrArg Prod.snd h
    simp only at h2
    rw [← h2]
    exact setPos_after_read cs p

/-- `parse_value` restores the entry position on failure. -/
theorem parseValue_restore (cs : List Char) (p : Nat) (m : String) (p2 : Nat)
    (h : parseValue cs p = (Except.error m, p2)) : p2 = p := by
  simp only [parseValue] at h
  cases ht : (nextToken cs p).1 <;> rw [ht] at h <;> dsimp only at h <;>
    injection h with h1 h2 <;>
    first
    | exact Except.noConfusion h1
    | (rw [← h2]
       exact setPos_after_read cs p)

/-- At or past the end of the input, `parse_if_expression` fails
immediately and leaves the position where it was. -/
theorem parseIfExpression_at_end (n : Nat) (cs : List Char) (p : Nat) (h : cs.length ≤ p) :
    ∃ m, parseIfExpression n cs p = (Except.error m, p) := by
  cases n with
  | zero => exact ⟨"fuel", rfl⟩
  | succ n =>
    have hct : consumeToken cs p Token.If =
        (Except.error ("expected token " ++ tokenRepr Token.If ++ ", actual token " ++
          tokenRepr Token.Eof), setPos cs p p) := by
      simp only [consumeToken, nextToken_at_end cs p h]
      rfl
    rw [setPos_self] at hct
    refine ⟨"expected token " ++ tokenRepr Token.If ++ ", actual token " ++
      tokenRepr Token.Eof, ?_⟩
    rw [parseIfExpression_succ, hct]

/-- `parse_expression` restores the entry position on failure (both
alternatives restore, and the final `set_position` is a no-op exactly
when the position was already the entry position). -/
theorem parseExpression_restore (n : Nat) (cs : List Char) (p : Nat) (m : String) (p2 : Nat)
    (h : parseExpression n cs p = (Except.error m, p2)) : p2 = p := by
  cases n with
  | zero =>
    rw [parseExpression_zero] at h
    exact (congrArg Prod.snd h).symm
  | succ n =>
    rw [parseExpression_succ] at h
    rcases hv : parseValue cs p with ⟨v, p1⟩
    rw [hv] at h
    cases v with
    | ok node =>
      dsimp only at h
      injection h with h1 h2
      exact Except.noConfusion h1
    | error e =>
      dsimp only at h
      have hp1 : p1 = p := parseValue_restore cs p e p1 hv
      rw [hp1, setPos_self] at h
      rcases hif : parseIfExpression n cs p with ⟨w, p3⟩
      rw [hif] at h
      cases w with
      | ok node =>
        dsimp only at h
        injection h with h1 h2
        exact Except.noConfusion h1
      | error e2 =>
        dsimp only at h
        injection h with h1 h2
        rw [← h2]
        apply setPos_back
        intro hend
        obtain ⟨m3, hm3⟩ := parseIfExpression_at_end n cs p hend
        rw [hm3] at hif
        exact (congrArg Prod.snd hif).symm

/-! ## C5: which failing rules restore the lexer position -/

/-- C5 counterexample: `parse_comparison` on the text `1 2`, entered at
position 0, fails (two values with no comparison operator in between),
but returns with the lexer at position 3 — the failing rule does not
restore the entry position. -/
theorem comparison_no_restore_counterexample :
    parseComparison ("1 2".toList) 0 =
      (Except.error "expected null or number but encountered Eof", 3) ∧ (3 : Nat) ≠ 0 :=
  ⟨rfl, by decide⟩

/-- C5 amended: `consume_token`, `parse_value` and `parse_expression`
restore the lexer position whenever they return a failure; the
remaining rules (`parse_comparison`, `parse_if_expression`,
`parse_condition`, `parse_disjunction`, `parse_conjunction`) may return
a failure with the position advanced past their entry point, and the
callers that try alternatives restore the position themselves at each
choice point. -/
theorem failing_rules_restore_position :
    (∀ cs p e m p2, consumeToken cs p e = (Except.error m, p2) → p2 = p) ∧
    (∀ cs p m p2, parseValue cs p = (Except.error m, p2) → p2 = p) ∧
    (∀ n cs p m p2, parseExpression n cs p = (Except.error m, p2) → p2 = p) :=
  ⟨consumeToken_restore, parseValue_restore, parseExpression_restore⟩

/-- Witness for the amended C5: concrete failing calls return to their
entry position 0. -/
theorem failing_rules_restore_position_witness :
    (consumeToken [':'] 0 Token.If).2 = 0 ∧ (parseValue [':'] 0).2 = 0 ∧
    (parseExpression 5 [':'] 0).2 = 0 :=
  ⟨failing_rules_restore_position.1 [':'] 0 Token.If
      ("expected token If, actual token Undef") 0 rfl,
    failing_rules_restore_position.2.1 [':'] 0
      ("expected null or number but encountered Undef") 0 rfl,
    failing_rules_restore_position.2.2 5 [':'] 0
      ("expected value or if expression") 0 rfl⟩

/-! ## C7, C8: associativity and precedence on concrete inputs -/

/-- C7: parsing `if(1<2 or 3>4 or 5>=6;7;null)` succeeds and the
condition is the left-leaning tree `Or(Or(Lt(1,2),Gt(3,4)),Ge(5,6))`. -/
theorem or_left_associative :
    parse ("if(1<2 or 3>4 or 5>=6;7;null)".toList) =
      Except.ok (AstNode.If
        (AstNode.Or
          (AstNode.Or (AstNode.Lt (AstNode.Number 1) (AstNode.Number 2))
            (AstNode.Gt (AstNode.Number 3) (AstNode.Number 4)))
          (AstNode.Ge (AstNode.Number 5) (AstNode.Number 6)))
        (AstNode.Number 7) AstNode.Null) := rfl

/-- C8: parsing `if(1<2 or 3>4 and 5>=6;7;null)` succeeds and the `and`
binds tighter than the `or`: the condition is
`Or(Lt(1,2), And(Gt(3,4),Ge(5,6)))`. -/
theorem and_binds_tighter_than_or :
    parse ("if(1<2 or 3>4 and 5>=6;7;null)".toList) =
      Except.ok (AstNode.If
        (AstNode.Or (AstNode.Lt (AstNode.Number 1) (AstNode.Number 2))
          (AstNode.And (AstNode.Gt (AstNode.Number 3) (AstNode.Number 4))
            (AstNode.Ge (AstNode.Number 5) (AstNode.Number 6))))
        (AstNode.Number 7) AstNode.Null) := rfl

/-! ## Stability of the lexer under appended input -/

theorem wsCount_le (xs : List Char) : wsCount xs ≤ xs.length := by
  induction xs with
  | nil => exact Nat.le_refl 0
  | cons c rest ih =>
    unfold wsCount
    split
    · exact Nat.succ_le_succ ih
    · exact Nat.zero_le _

theorem wsCount_append (xs ys : List Char) (h : wsCount xs < xs.length) :
    wsCount (xs ++ ys) = wsCount xs := by
  induction xs with
  | nil => exact absurd h (by simp)
  | cons c rest ih =>
    rw [List.cons_append]
    unfold wsCount
    split
    · have hr : wsCount rest < rest.length := by
        unfold wsCount at h
        rw [if_pos (by assumption)] at h
        simpa using h
      rw [ih hr]
    · rfl

theorem skipWs_ge (cs : List Char) (p : Nat) : p ≤ skipWs cs p :=
  Nat.le_add_right p _

theorem skipWs_append (cs r : List Char) (p : Nat) (h : skipWs cs p < cs.length) :
    skipWs (cs ++ r) p = skipWs cs p := by
  have hp : p ≤ cs.length := le_of_lt (Nat.lt_of_le_of_lt (skipWs_ge cs p) h)
  unfold skipWs at h ⊢
  rw [List.drop_append_of_le_length hp]
  rw [wsCount_append]
  have hlen : (List.drop p cs).length = cs.length - p := List.length_drop p cs
  omega

theorem getD_ne_default_lt (cs : List Char) (n : Nat) (d : Char) (h : ¬ cs.getD n d = d) :
    n < cs.length := by
  by_contra hn
  exact h (List.getD_eq_default cs d (le_of_not_lt hn))

/-- When whitespace skipping runs to the end of the input, the read is
`Eof` at the skipped position. -/
theorem nextToken_eof_of_skip_ge (cs : List Char) (p : Nat)
    (h : cs.length ≤ skipWs cs p) : nextToken cs p = (Token.Eof, skipWs cs p) := by
  simp only [nextToken]
  rw [List.getD_eq_default cs ' ' h, List.getD_eq_default cs ' ' (by omega),
    List.getD_eq_default cs ' ' (by omega), List.getD_eq_default cs ' ' (by omega)]
  rfl

theorem nextToken_skip_lt (cs : List Char) (p : Nat)
    (h : (nextToken cs p).1 ≠ Token.Eof) : skipWs cs p < cs.length := by
  by_contra hn
  rw [nextToken_eof_of_skip_ge cs p (le_of_not_lt hn)] at h
  exact h rfl

theorem nextToken_pos_lt (cs : List Char) (p : Nat)
    (h : (nextToken cs p).1 ≠ Token.Eof) : p < cs.length :=
  Nat.lt_of_le_of_lt (skipWs_ge cs p) (nextToken_skip_lt cs p h)

/-! Forward evaluation of the fixed-pattern arms with only the decisive
characters fixed: out-of-window characters never change these arms. -/

theorem ft_null : fixedTok 'n' 'u' 'l' 'l' = some (Token.Null, 4) := by decide

theorem ft_and (c3 : Char) : fixedTok 'a' 'n' 'd' c3 = some (Token.And, 3) := by
  unfold fixedTok
  rw [if_neg (fun hh => absurd hh.1 (by decide)), if_pos ⟨rfl, rfl, rfl⟩]

theorem ft_if (c2 c3 : Char) : fixedTok 'i' 'f' c2 c3 = some (Token.If, 2) := by
  unfold fixedTok
  rw [if_neg (fun hh => absurd hh.1 (by decide)), if_neg (fun hh => absurd hh.1 (by decide)),
    if_pos ⟨rfl, rfl⟩]

theorem ft_or (c2 c3 : Char) : fixedTok 'o' 'r' c2 c3 = some (Token.Or, 2) := by
  unfold fixedTok
  rw [if_neg (fun hh => absurd hh.1 (by decide)), if_neg (fun hh => absurd hh.1 (by decide)),
    if_neg (fun hh => absurd hh.1 (by decide)), if_pos ⟨rfl, rfl⟩]

theorem ft_le (c2 c3 : Char) : fixedTok '<' '=' c2 c3 = some (Token.Le, 2) := by
  unfold fixedTok
  rw [if_neg (fun hh => absurd hh.1 (by decide)), if_neg (fun hh => absurd hh.1 (by decide)),
    if_neg (fun hh => absurd hh.1 (by decide)), if_neg (fun hh => absurd hh.1 (by decide)),
    if_pos ⟨rfl, rfl⟩]

theorem ft_ge (c2 c3 : Char) : fixedTok '>' '=' c2 c3 = some (Token.Ge, 2) := by
  unfold fixedTok
  rw [if_neg (fun hh => absurd hh.1 (by decide)), if_neg (fun hh => absurd hh.1 (by decide)),
    if_neg (fun hh => absurd hh.1 (by decide)), if_neg (fun hh => absurd hh.1 (by decide)),
    if_neg (fun hh => absurd hh.1 (by decide)), if_pos ⟨rfl, rfl⟩]

theorem ft_nq (c2 c3 : Char) : fixedTok '<' '>' c2 c3 = some (Token.Nq, 2) := by
  unfold fixedTok
  rw [if_neg (fun hh => absurd hh.1 (by decide)), if_neg (fun hh => absurd hh.1 (by decide)),
    if_neg (fun hh => absurd hh.1 (by decide)), if_neg (fun hh => absurd hh.1 (by decide)),
    if_neg (fun hh => absurd hh.2 (by decide)), if_neg (fun hh => absurd hh.1 (by decide)),
    if_pos ⟨rfl, rfl⟩]

theorem ft_eq (c1 c2 c3 : Char) : fixedTok '=' c1 c2 c3 = some (Token.Eq, 1) := by
  unfold fixedTok
  rw [if_neg (fun hh => absurd hh.1 (by decide)), if_neg (fun hh => absurd hh.1 (by decide)),
    if_neg (fun hh => absurd hh.1 (by decide)), if_neg (fun hh => absurd hh.1 (by decide)),
    if_neg (fun hh => absurd hh.1 (by decide)), if_neg (fun hh => absurd hh.1 (by decide)),
    if_neg (fun hh => absurd hh.1 (by decide)), if_pos rfl]

theorem ft_lt (c1 c2 c3 : Char) (h1 : ¬ c1 = '=') (h2 : ¬ c1 = '>') :
    fixedTok '<' c1 c2 c3 = some (Token.Lt, 1) := by
  unfold fixedTok
  rw [if_neg (fun hh => absurd hh.1 (by decide)), if_neg (fun hh => absurd hh.1 (by decide)),
    if_neg (fun hh => absurd hh.1 (by decide)), if_neg (fun hh => absurd hh.1 (by decide)),
    if_neg (fun hh => h1 hh.2), if_neg (fun hh => absurd hh.1 (by decide)),
    if_neg (fun hh => h2 hh.2), if_neg (by decide), if_pos rfl]

theorem ft_gt (c1 c2 c3 : Char) (h1 : ¬ c1 = '=') :
    fixedTok '>' c1 c2 c3 = some (Token.Gt, 1) := by
  unfold fixedTok
  rw [if_neg (fun hh => absurd hh.1 (by decide)), if_neg (fun hh => absurd hh.1 (by decide)),
    if_neg (fun hh => absurd hh.1 (by decide)), if_neg (fun hh => absurd hh.1 (by decide)),
    if_neg (fun hh => absurd hh.1 (by decide)), if_neg (fun hh => h1 hh.2),
    if_neg (fun hh => absurd hh.1 (by decide)), if_neg (by decide), if_neg (by decide),
    if_pos rfl]

theorem ft_semi (c1 c2 c3 : Char) : fixedTok ';' c1 c2 c3 = some (Token.Semicolon, 1) := by
  unfold fixedTok
  rw [if_neg (fun hh => absurd hh.1 (by decide)), if_neg (fun hh => absurd hh.1 (by decide)),
    if_neg (fun hh => absurd hh.1 (by decide)), if_neg (fun hh => absurd hh.1 (by decide)),
    if_neg (fun hh => absurd hh.1 (by decide)), if_neg (fun hh => absurd hh.1 (by decide)),
    if_neg (fun hh => absurd hh.1 (by decide)), if_neg (by decide), if_neg (by decide),
    if_neg (by decide), if_pos rfl]

theorem ft_lparen (c1 c2 c3 : Char) : fixedTok '(' c1 c2 c3 = some (Token.LeftParen, 1) := by
  unfold fixedTok
  rw [if_neg (fun hh => absurd hh.1 (by decide)), if_neg (fun hh => absurd hh.1 (by decide)),
    if_neg (fun hh => absurd hh.1 (by decide)), if_neg (fun hh => absurd hh.1 (by decide)),
    if_neg (fun hh => absurd hh.1 (by decide)), if_neg (fun hh => absurd hh.1 (by decide)),
    if_neg (fun hh => absurd hh.1 (by decide)), if_neg (by decide), if_neg (by decide),
    if_neg (by decide), if_neg (by decide), if_pos rfl]

theorem ft_rparen (c1 c2 c3 : Char) : fixedTok ')' c1 c2 c3 = some (Token.RightParen, 1) := by
  unfold fixedTok
  rw [if_neg (fun hh => absurd hh.1 (by decide)), if_neg (fun hh => absurd hh.1 (by decide)),
    if_neg (fun hh => absurd hh.1 (by decide)), if_neg (fun hh => absurd hh.1 (by decide)),
    if_neg (fun hh => absurd hh.1 (by decide)), if_neg (fun hh => absurd hh.1 (by decide)),
    if_neg (fun hh => absurd hh.1 (by decide)), if_neg (by decide), if_neg (by decide),
    if_neg (by decide), if_neg (by decide), if_neg (by decide), if_pos rfl]

/-- Inversion of a successful fixed-pattern match: the arm that fired,
with the character facts its firing implies (including the negative
facts from the earlier arms that matter for stability). -/
theorem fixedTok_inv (c0 c1 c2 c3 : Char) (t : Token) (k : Nat)
    (h : fixedTok c0 c1 c2 c3 = some (t, k)) :
    (t = Token.Null ∧ k = 4 ∧ c0 = 'n' ∧ c1 = 'u' ∧ c2 = 'l' ∧ c3 = 'l') ∨
    (t = Token.And ∧ k = 3 ∧ c0 = 'a' ∧ c1 = 'n' ∧ c2 = 'd') ∨
    (t = Token.If ∧ k = 2 ∧ c0 = 'i' ∧ c1 = 'f') ∨
    (t = Token.Or ∧ k = 2 ∧ c0 = 'o' ∧ c1 = 'r') ∨
    (t = Token.Le ∧ k = 2 ∧ c0 = '<' ∧ c1 = '=') ∨
    (t = Token.Ge ∧ k = 2 ∧ c0 = '>' ∧ c1 = '=') ∨
    (t = Token.Nq ∧ k = 2 ∧ c0 = '<' ∧ c1 = '>') ∨
    (t = Token.Eq ∧ k = 1 ∧ c0 = '=') ∨
    (t = Token.Lt ∧ k = 1 ∧ c0 = '<' ∧ ¬ c1 = '=' ∧ ¬ c1 = '>') ∨
    (t = Token.Gt ∧ k = 1 ∧ c0 = '>' ∧ ¬ c1 = '=') ∨
    (t = Token.Semicolon ∧ k = 1 ∧ c0 = ';') ∨
    (t = Token.LeftParen ∧ k = 1 ∧ c0 = '(') ∨
    (t = Token.RightParen ∧ k = 1 ∧ c0 = ')') := by
  unfold fixedTok at h
  by_cases h1 : c0 = 'n' ∧ c1 = 'u' ∧ c2 = 'l' ∧ c3 = 'l'
  · rw [if_pos h1] at h
    injection h with hh
    exact Or.inl ⟨(congrArg Prod.fst hh).symm, (congrArg Prod.snd hh).symm,
      h1.1, h1.2.1, h1.2.2.1, h1.2.2.2⟩
  rw [if_neg h1] at h
  by_cases h2 : c0 = 'a' ∧ c1 = 'n' ∧ c2 = 'd'
  · rw [if_pos h2] at h
    injection h with hh
    exact Or.inr (Or.inl ⟨(congrArg Prod.fst hh).symm, (congrArg Prod.snd hh).symm,
      h2.1, h2.2.1, h2.2.2⟩)
  rw [if_neg h2] at h
  by_cases h3 : c0 = 'i' ∧ c1 = 'f'
  · rw [if_pos h3] at h
    injection h with hh
    exact Or.inr (Or.inr (Or.inl ⟨(congrArg Prod.fst hh).symm, (congrArg Prod.snd hh).symm,
      h3.1, h3.2⟩))
  rw [if_neg h3] at h
  by_cases h4 : c0 = 'o' ∧ c1 = 'r'
  · rw [if_pos h4] at h
    injection h with hh
    exact Or.inr (Or.inr (Or.inr (Or.inl ⟨(congrArg Prod.fst hh).symm,
      (congrArg Prod.snd hh).symm, h4.1, h4.2⟩)))
  rw [if_neg h4] at h
  by_cases h5 : c0 = '<' ∧ c1 = '='
  · rw [if_pos h5] at h
    injection h with hh
    exact Or.inr (Or.inr (Or.inr (Or.inr (Or.inl ⟨(congrArg Prod.fst hh).symm,
      (congrArg Prod.snd hh).symm, h5.1, h5.2⟩))))
  rw [if_neg h5] at h
  by_cases h6 : c0 = '>' ∧ c1 = '='
  · rw [if_pos h6] at h
    injection h with hh
    exact Or.inr (Or.inr (Or.inr (Or.inr (Or.inr (Or.inl ⟨(congrArg Prod.fst hh).symm,
      (congrArg Prod.snd hh).symm, h6.1, h6.2⟩)))))
  rw [if_neg h6] at h
  by_cases h7 : c0 = '<' ∧ c1 = '>'
  · rw [if_pos h7] at h
    injection h with hh
    exact Or.inr (Or.inr (Or.inr (Or.inr (Or.inr (Or.inr (Or.inl
      ⟨(congrArg Prod.fst hh).symm, (congrArg Prod.snd hh).symm, h7.1, h7.2⟩))))))
  rw [if_neg h7] at h
  by_cases h8 : c0 = '='
  · rw [if_pos h8] at h
    injection h with hh
    exact Or.inr (Or.inr (Or.inr (Or.inr (Or.inr (Or.inr (Or.inr (Or.inl
      ⟨(congrArg Prod.fst hh).symm, (congrArg Prod.snd hh).symm, h8⟩)))))))
  rw [if_neg h8] at h
  by_cases h9 : c0 = '<'
  · rw [if_pos h9] at h
    injection h with hh
    refine Or.inr (Or.inr (Or.inr (Or.inr (Or.inr (Or.inr (Or.inr (Or.inr (Or.inl
      ⟨(congrArg Prod.fst hh).symm, (congrArg Prod.snd hh).symm, h9, ?_, ?_⟩))))))))
    · exact fun hc1 => h5 ⟨h9, hc1⟩
    · exact fun hc1 => h7 ⟨h9, hc1⟩
  rw [if_neg h9] at h
  by_cases h10 : c0 = '>'
  · rw [if_pos h10] at h
    injection h with hh
    refine Or.inr (Or.inr (Or.inr (Or.inr (Or.inr (Or.inr (Or.inr (Or.inr (Or.inr (Or.inl
      ⟨(congrArg Prod.fst hh).symm, (congrArg Prod.snd hh).symm, h10, ?_⟩)))))))))
    exact fun hc1 => h6 ⟨h10, hc1⟩
  rw [if_neg h10] at h
  by_cases h11 : c0 = ';'
  · rw [if_pos h11] at h
    injection h with hh
    exact Or.inr (Or.inr (Or.inr (Or.inr (Or.inr (Or.inr (Or.inr (Or.inr (Or.inr (Or.inr
      (Or.inl ⟨(congrArg Prod.fst hh).symm, (congrArg Prod.snd hh).symm, h11⟩))))))))))
  rw [if_neg h11] at h
  by_cases h12 : c0 = '('
  · rw [if_pos h12] at h
    injection h with hh
    exact Or.inr (Or.inr (Or.inr (Or.inr (Or.inr (Or.inr (Or.inr (Or.inr (Or.inr (Or.inr
      (Or.inr (Or.inl ⟨(congrArg Prod.fst hh).symm, (congrArg Prod.snd hh).symm,
        h12⟩)))))))))))
  rw [if_neg h12] at h
  by_cases h13 : c0 = ')'
  · rw [if_pos h13] at h
    injection h with hh
    exact Or.inr (Or.inr (Or.inr (Or.inr (Or.inr (Or.inr (Or.inr (Or.inr (Or.inr (Or.inr
      (Or.inr (Or.inr ⟨(congrArg Prod.fst hh).symm, (congrArg Prod.snd hh).symm,
        h13⟩)))))))))))
  rw [if_neg h13] at h
  exact Option.noConfusion h

/-- Stability of a single read under appended input: a read that is not
`Eof` or `Undef` returns the same token and position on `cs ++ r`,
provided that for the extendable tokens (`Lt`, `Gt`, `Number`) the read
stopped strictly before the end of the input. -/
theorem nextToken_append (cs r : List Char) (p : Nat) (t : Token) (p2 : Nat)
    (h : nextToken cs p = (t, p2))
    (hne1 : t ≠ Token.Eof) (hne2 : t ≠ Token.Undef)
    (hst : stableTok t = true ∨ p2 < cs.length) :
    nextToken (cs ++ r) p = (t, p2) := by
  have hq : skipWs cs p < cs.length := nextToken_skip_lt cs p (by rw [h]; exact hne1)
  have hqe : skipWs (cs ++ r) p = skipWs cs p := skipWs_append cs r p hq
  have hc0 : (cs ++ r).getD (skipWs cs p) ' ' = cs.getD (skipWs cs p) ' ' :=
    List.getD_append cs r ' ' _ hq
  rcases hF : fixedTok (cs.getD (skipWs cs p) ' ') (cs.getD (skipWs cs p + 1) ' ')
      (cs.getD (skipWs cs p + 2) ' ') (cs.getD (skipWs cs p + 3) ' ') with _ | ⟨t0, k⟩
  · -- no fixed arm: numeral, Eof or Undef
    simp only [nextToken, hF] at h
    by_cases hd : isNonZeroDigit (cs.getD (skipWs cs p) ' ') = true
    · rw [if_pos hd] at h
      by_cases hle : digitsToNat ((cs.drop (skipWs cs p)).takeWhile isDigitCh) ≤ 255
      · rw [if_pos hle] at h
        injection h with hI1 hI2
        rcases hst with hstL | hlt
        · rw [← hI1] at hstL
          exact absurd hstL (by simp [stableTok])
        have hql : skipWs cs p ≤ cs.length := le_of_lt hq
        rw [← hI2] at hlt
        have hlend : (cs.drop (skipWs cs p)).length = cs.length - skipWs cs p :=
          List.length_drop _ _
        have hlen : ((cs.drop (skipWs cs p)).takeWhile isDigitCh).length <
            (cs.drop (skipWs cs p)).length := by omega
        have hdrop : (cs ++ r).drop (skipWs cs p) = cs.drop (skipWs cs p) ++ r :=
          List.drop_append_of_le_length hql
        have htw : ((cs.drop (skipWs cs p)) ++ r).takeWhile isDigitCh =
            (cs.drop (skipWs cs p)).takeWhile isDigitCh := by
          rw [List.takeWhile_append, if_neg (Nat.ne_of_lt hlen)]
        simp only [nextToken, hqe, hc0]
        rw [fixedTok_none_of_digit _ _ _ _ hd]
        dsimp only
        rw [if_pos hd, hdrop, htw, if_pos hle, ← hI1, ← hI2]
      · rw [if_neg hle] at h
        injection h with hI1 hI2
        exact absurd hI1.symm hne2
    · rw [if_neg hd] at h
      by_cases hsp : cs.getD (skipWs cs p) ' ' = ' ' ∧ cs.getD (skipWs cs p + 1) ' ' = ' ' ∧
          cs.getD (skipWs cs p + 2) ' ' = ' ' ∧ cs.getD (skipWs cs p + 3) ' ' = ' '
      · rw [if_pos hsp] at h
        injection h with hI1 hI2
        exact absurd hI1.symm hne1
      · rw [if_neg hsp] at h
        injection h with hI1 hI2
        exact absurd hI1.symm hne2
  · -- a fixed arm fired
    simp only [nextToken, hF] at h
    injection h with hI1 hI2
    rcases fixedTok_inv _ _ _ _ _ _ hF with
      ⟨ht, hk, h0, hc1, hc2, hc3⟩ | ⟨ht, hk, h0, hc1, hc2⟩ | ⟨ht, hk, h0, hc1⟩ |
      ⟨ht, hk, h0, hc1⟩ | ⟨ht, hk, h0, hc1⟩ | ⟨ht, hk, h0, hc1⟩ | ⟨ht, hk, h0, hc1⟩ |
      ⟨ht, hk, h0⟩ | ⟨ht, hk, h0, hd1, hd2⟩ | ⟨ht, hk, h0, hd1⟩ | ⟨ht, hk, h0⟩ |
      ⟨ht, hk, h0⟩ | ⟨ht, hk, h0⟩
    · -- Null
      have hb1 : skipWs cs p + 1 < cs.length := getD_ne_default_lt _ _ _ (by rw [hc1]; decide)
      have hb2 : skipWs cs p + 2 < cs.length := getD_ne_default_lt _ _ _ (by rw [hc2]; decide)
      have hb3 : skipWs cs p + 3 < cs.length := getD_ne_default_lt _ _ _ (by rw [hc3]; decide)
      simp only [nextToken, hqe]
      rw [hc0, List.getD_append cs r ' ' _ hb1, List.getD_append cs r ' ' _ hb2,
        List.getD_append cs r ' ' _ hb3, h0, hc1, hc2, hc3, ft_null]
      dsimp only
      rw [← hI1, ht, ← hI2, hk]
    · -- And
      have hb1 : skipWs cs p + 1 < cs.length := getD_ne_default_lt _ _ _ (by rw [hc1]; decide)
      have hb2 : skipWs cs p + 2 < cs.length := getD_ne_default_lt _ _ _ (by rw [hc2]; decide)
      simp only [nextToken, hqe]
      rw [hc0, List.getD_append cs r ' ' _ hb1, List.getD_append cs r ' ' _ hb2,
        h0, hc1, hc2, ft_and]
      dsimp only
      rw [← hI1, ht, ← hI2, hk]
    · -- If
      have hb1 : skipWs cs p + 1 < cs.length := getD_ne_default_lt _ _ _ (by rw [hc1]; decide)
      simp only [nextToken, hqe]
      rw [hc0, List.getD_append cs r ' ' _ hb1, h0, hc1, ft_if]
      dsimp only
      rw [← hI1, ht, ← hI2, hk]
    · -- Or
      have hb1 : skipWs cs p + 1 < cs.length := getD_ne_default_lt _ _ _ (by rw [hc1]; decide)
      simp only [nextToken, hqe]
      rw [hc0, List.getD_append cs r ' ' _ hb1, h0, hc1, ft_or]
      dsimp only
      rw [← hI1, ht, ← hI2, hk]
    · -- Le
      have hb1 : skipWs cs p + 1 < cs.length := getD_ne_default_lt _ _ _ (by rw [hc1]; decide)
      simp only [nextToken, hqe]
      rw [hc0, List.getD_append cs r ' ' _ hb1, h0, hc1, ft_le]
      dsimp only
      rw [← hI1, ht, ← hI2, hk]
    · -- Ge
      have hb1 : skipWs cs p + 1 < cs.length := getD_ne_default_lt _ _ _ (by rw [hc1]; decide)
      simp only [nextToken, hqe]
      rw [hc0, List.getD_append cs r ' ' _ hb1, h0, hc1, ft_ge]
      dsimp only
      rw [← hI1, ht, ← hI2, hk]
    · -- Nq
      have hb1 : skipWs cs p + 1 < cs.length := getD_ne_default_lt _ _ _ (by rw [hc1]; decide)
      simp only [nextToken, hqe]
      rw [hc0, List.getD_append cs r ' ' _ hb1, h0, hc1, ft_nq]
      dsimp only
      rw [← hI1, ht, ← hI2, hk]
    · -- Eq
      simp only [nextToken, hqe]
      rw [hc0, h0, ft_eq]
      dsimp only
      rw [← hI1, ht, ← hI2, hk]
    · -- Lt: needs the character after the operator to be real
      rcases hst with hstL | hlt
      · rw [← hI1, ht] at hstL
        exact absurd hstL (by decide)
      rw [← hI2, hk] at hlt
      have hce1 : (cs ++ r).getD (skipWs cs p + 1) ' ' = cs.getD (skipWs cs p + 1) ' ' :=
        List.getD_append cs r ' ' _ hlt
      simp only [nextToken, hqe]
      rw [hc0, hce1, h0, ft_lt _ _ _ hd1 hd2]
      dsimp only
      rw [← hI1, ht, ← hI2, hk]
    · -- Gt
      rcases hst with hstL | hlt
      · rw [← hI1, ht] at hstL
        exact absurd hstL (by decide)
      rw [← hI2, hk] at hlt
      have hce1 : (cs ++ r).getD (skipWs cs p + 1) ' ' = cs.getD (skipWs cs p + 1) ' ' :=
        List.getD_append cs r ' ' _ hlt
      simp only [nextToken, hqe]
      rw [hc0, hce1, h0, ft_gt _ _ _ hd1]
      dsimp only
      rw [← hI1, ht, ← hI2, hk]
    · -- Semicolon
      simp only [nextToken, hqe]
      rw [hc0, h0, ft_semi]
      dsimp only
      rw [← hI1, ht, ← hI2, hk]
    · -- LeftParen
      simp only [nextToken, hqe]
      rw [hc0, h0, ft_lparen]
      dsimp only
      rw [← hI1, ht, ← hI2, hk]
    · -- RightParen
      simp only [nextToken, hqe]
      rw [hc0, h0, ft_rparen]
      dsimp only
      rw [← hI1, ht, ← hI2, hk]

theorem stableTok_ne_eof (t : Token) (h : stableTok t = true) : t ≠ Token.Eof := by
  intro he
  subst he
  exact absurd h (by decide)

theorem stableTok_ne_undef (t : Token) (h : stableTok t = true) : t ≠ Token.Undef := by
  intro he
  subst he
  exact absurd h (by decide)

/-- A read of a stable token is unaffected by appending input. -/
theorem safeAt_of_read (cs r : List Char) (p : Nat) (t : Token) (p2 : Nat)
    (h : nextToken cs p = (t, p2)) (hs : stableTok t = true) : SafeAt cs r p := by
  constructor
  · rw [h]
    exact nextToken_append cs r p t p2 h (stableTok_ne_eof t hs) (stableTok_ne_undef t hs)
      (Or.inl hs)
  · rw [h]
    exact stableTok_ne_eof t hs

theorem SafeAt.pos_lt {cs r : List Char} {p : Nat} (h : SafeAt cs r p) : p < cs.length :=
  nextToken_pos_lt cs p h.2

/-- Restoring a saved position that is strictly inside the original
input also restores it over the extended input. -/
theorem setPos_restore_append (cs r : List Char) (cur p : Nat) (hp : p < cs.length) :
    setPos (cs ++ r) cur p = p := by
  unfold setPos
  rw [if_pos (by rw [List.length_append]; omega)]

/-- A successful `consume_token` read exactly the expected token. -/
theorem consumeToken_ok_inv (cs : List Char) (p : Nat) (e : Token) (u : Unit) (p2 : Nat)
    (h : consumeToken cs p e = (Except.ok u, p2)) :
    (nextToken cs p).1 = e ∧ p2 = (nextToken cs p).2 := by
  simp only [consumeToken] at h
  by_cases hc : (nextToken cs p).1 = e
  · rw [if_pos hc] at h
    injection h with _ h2
    exact ⟨hc, h2.symm⟩
  · rw [if_neg hc] at h
    injection h with h1 _
    exact Except.noConfusion h1

/-- A successful `consume_token` of a stable structural token replays
on the extended input. -/
theorem consumeToken_ok_append (cs r : List Char) (p : Nat) (e : Token) (u : Unit) (p2 : Nat)
    (h : consumeToken cs p e = (Except.ok u, p2)) (hs : stableTok e = true) :
    consumeToken (cs ++ r) p e = (Except.ok (), p2) := by
  obtain ⟨h1, h2⟩ := consumeToken_ok_inv cs p e u p2 h
  have hn : nextToken cs p = (e, p2) := Prod.ext_iff.mpr ⟨h1, h2.symm⟩
  have hext := nextToken_append cs r p e p2 hn (stableTok_ne_eof e hs)
    (stableTok_ne_undef e hs) (Or.inl hs)
  simp only [consumeToken, hext]
  rw [if_pos trivial]

/-- The token read by a successful `consume_token` yields a `SafeAt`
fact for its start position. -/
theorem safeAt_of_consume_ok (cs r : List Char) (p : Nat) (e : Token) (u : Unit) (p2 : Nat)
    (h : consumeToken cs p e = (Except.ok u, p2)) (hs : stableTok e = true) :
    SafeAt cs r p := by
  obtain ⟨h1, _⟩ := consumeToken_ok_inv cs p e u p2 h
  exact safeAt_of_read cs r p e (nextToken cs p).2 (Prod.ext_iff.mpr ⟨h1, rfl⟩) hs

/-- A failing `consume_token` at a safe position replays on the
extended input, restoring the entry position. -/
theorem consumeToken_fail_append (cs r : List Char) (p : Nat) (e : Token) (m : String)
    (p2 : Nat) (h : consumeToken cs p e = (Except.error m, p2)) (hS : SafeAt cs r p) :
    consumeToken (cs ++ r) p e = (Except.error m, p) := by
  simp only [consumeToken] at h ⊢
  rw [hS.1]
  by_cases hc : (nextToken cs p).1 = e
  · rw [if_pos hc] at h
    injection h with h1 _
    exact Except.noConfusion h1
  · rw [if_neg hc] at h ⊢
    injection h with h1 h2
    injection h1 with hm
    rw [hm, setPos_restore_append cs r _ p hS.pos_lt]

/-- A successful `parse_value` did not read `Eof`. -/
theorem parseValue_ok_ne_eof (cs : List Char) (p : Nat) (a : AstNode) (p2 : Nat)
    (h : parseValue cs p = (Except.ok a, p2)) : (nextToken cs p).1 ≠ Token.Eof := by
  simp only [parseValue] at h
  intro he
  rw [he] at h
  dsimp only at h
  injection h with h1 _
  exact Except.noConfusion h1

/-- A successful `parse_value` that stops strictly inside the input
replays on the extended input. -/
theorem parseValue_ok_append (cs r : List Char) (p : Nat) (a : AstNode) (p2 : Nat)
    (h : parseValue cs p = (Except.ok a, p2)) (hlt : p2 < cs.length) :
    parseValue (cs ++ r) p = (Except.ok a, p2) := by
  simp only [parseValue] at h ⊢
  rcases hn : nextToken cs p with ⟨t, q⟩
  rw [hn] at h
  cases t
  case Null =>
    dsimp only at h
    injection h with h1 h2
    injection h1 with h1a
    have hext := nextToken_append cs r p Token.Null q hn (by decide) (by decide)
      (Or.inl (by decide))
    rw [hext]
    dsimp only
    rw [h1a, h2]
  case Number n =>
    dsimp only at h
    injection h with h1 h2
    injection h1 with h1a
    have hext := nextToken_append cs r p (Token.Number n) q hn
      (by intro hx; exact Token.noConfusion hx) (by intro hx; exact Token.noConfusion hx)
      (Or.inr (by rw [h2]; exact hlt))
    rw [hext]
    dsimp only
    rw [h1a, h2]
  all_goals
    (dsimp only at h
     injection h with h1 h2
     exact Except.noConfusion h1)

/-- A failing `parse_value` at a safe position replays on the extended
input, restoring the entry position. -/
theorem parseValue_fail_append (cs r : List Char) (p : Nat) (m : String) (p2 : Nat)
    (h : parseValue cs p = (Except.error m, p2)) (hS : SafeAt cs r p) :
    parseValue (cs ++ r) p = (Except.error m, p) := by
  simp only [parseValue] at h ⊢
  rcases hn : nextToken cs p with ⟨t, q⟩
  rw [hn] at h
  rw [hS.1, hn]
  cases t
  case Null =>
    dsimp only at h
    injection h with h1 _
    exact Except.noConfusion h1
  case Number n =>
    dsimp only at h
    injection h with h1 _
    exact Except.noConfusion h1
  all_goals
    (dsimp only at h ⊢
     injection h with h1 h2
     injection h1 with hm
     rw [hm, setPos_restore_append cs r q p hS.pos_lt])

/-- At or past the end of the input, `parse_comparison` fails and
leaves the position where it was. -/
theorem parseComparison_at_end (cs : List Char) (p : Nat) (h : cs.length ≤ p) :
    ∃ m, parseComparison cs p = (Except.error m, p) := by
  have hv : parseValue cs p =
      (Except.error ("expected null or number but encountered " ++ tokenRepr Token.Eof), p) := by
    simp only [parseValue, nextToken_at_end cs p h]
    rw [setPos_self]
  refine ⟨"expected null or number but encountered " ++ tokenRepr Token.Eof, ?_⟩
  simp only [parseComparison, hv]

/-- When the next token is a left parenthesis, `parse_comparison` fails
at once and leaves the position where it was (this is the alternative
`parse_conjunction` backtracks from). -/
theorem parseComparison_fail_lparen (cs : List Char) (p : Nat)
    (h : (nextToken cs p).1 = Token.LeftParen) :
    ∃ m, parseComparison cs p = (Except.error m, p) := by
  have hv : parseValue cs p =
      (Except.error ("expected null or number but encountered " ++ tokenRepr Token.LeftParen),
        p) := by
    simp only [parseValue]
    rw [h]
    dsimp only
    rw [setPos_after_read]
  refine ⟨"expected null or number but encountered " ++ tokenRepr Token.LeftParen, ?_⟩
  simp only [parseComparison, hv]

/-- A successful `parse_comparison` that stops strictly inside the
input replays on the extended input. -/
theorem parseComparison_ok_append (cs r : List Char) (p : Nat) (a : AstNode) (p3 : Nat)
    (h : parseComparison cs p = (Except.ok a, p3)) (hlt : p3 < cs.length) :
    parseComparison (cs ++ r) p = (Except.ok a, p3) := by
  simp only [parseComparison] at h ⊢
  rcases hv1 : parseValue cs p with ⟨v1, p1⟩
  rw [hv1] at h
  cases v1 with
  | error e =>
    dsimp only at h
    injection h with h1 _
    exact Except.noConfusion h1
  | ok leftOp =>
    dsimp only at h
    rcases hop : nextToken cs p1 with ⟨op, q2⟩
    rw [hop] at h
    rcases hv2 : parseValue cs q2 with ⟨v2, p3x⟩
    rw [hv2] at h
    cases v2 with
    | error e =>
      dsimp only at h
      injection h with h1 _
      exact Except.noConfusion h1
    | ok rightOp =>
      dsimp only at h
      have hq2lt : q2 < cs.length :=
        nextToken_pos_lt cs q2 (parseValue_ok_ne_eof cs q2 rightOp p3x hv2)
      cases op <;>
        first
        | (injection h with h1 h2
           exact Except.noConfusion h1)
        | (injection h with h1 h2
           injection h1 with h1a
           have hp1lt : p1 < cs.length :=
             nextToken_pos_lt cs p1 (by rw [hop]; intro hx; exact Token.noConfusion hx)
           have hopext := nextToken_append cs r p1 _ q2 hop
             (by intro hx; exact Token.noConfusion hx)
             (by intro hx; exact Token.noConfusion hx) (Or.inr hq2lt)
           rw [parseValue_ok_append cs r p leftOp p1 hv1 hp1lt]
           dsimp only
           rw [hopext]
           dsimp only
           rw [parseValue_ok_append cs r q2 rightOp p3x hv2 (by rw [h2]; exact hlt)]
           dsimp only
           rw [h1a, h2])

/-- A successful `if`-expression parse begins by reading the `if`
token. -/
theorem parseRun_ifx_ok_token (n : Nat) (cs : List Char) (p : Nat) (a : AstNode) (p2 : Nat)
    (h : parseRun n PRule.ifx cs p = (Except.ok a, p2)) : (nextToken cs p).1 = Token.If := by
  cases n with
  | zero =>
    rw [show parseRun 0 PRule.ifx cs p = (Except.error "fuel", p) from rfl] at h
    injection h with hx _
    exact Except.noConfusion hx
  | succ n =>
    simp only [parseRun] at h
    rcases h1 : consumeToken cs p Token.If with ⟨w1, q1⟩
    rw [h1] at h
    cases w1 with
    | error e =>
      dsimp only at h
      injection h with hx _
      exact Except.noConfusion hx
    | ok u => exact (consumeToken_ok_inv cs p Token.If u q1 h1).1

/-- The first read of a running `or` loop is safe whenever the loop's
final position is: the loop either consumes a stable `or` token or
exits immediately at its final position. -/
theorem condL_entry_safe (n : Nat) (cs r : List Char) (A a : AstNode) (p p2 : Nat)
    (h : parseRun n (PRule.condL A) cs p = (Except.ok a, p2)) (hS : SafeAt cs r p2) :
    SafeAt cs r p := by
  cases n with
  | zero =>
    rw [show parseRun 0 (PRule.condL A) cs p = (Except.error "fuel", p) from rfl] at h
    injection h with hx _
    exact Except.noConfusion hx
  | succ n =>
    simp only [parseRun] at h
    rcases hor : consumeToken cs p Token.Or with ⟨w, p1⟩
    rw [hor] at h
    cases w with
    | ok u =>
      obtain ⟨h1, _⟩ := consumeToken_ok_inv cs p Token.Or u p1 hor
      exact safeAt_of_read cs r p Token.Or (nextToken cs p).2
        (Prod.ext_iff.mpr ⟨h1, rfl⟩) (by decide)
    | error e =>
      dsimp only at h
      injection h with _ h2
      have hp1 : p1 = p := consumeToken_restore cs p Token.Or e p1 hor
      rw [← hp1, h2]
      exact hS

/-- The first read of a running `and` loop is safe whenever the loop's
final position is. -/
theorem disjL_entry_safe (n : Nat) (cs r : List Char) (A a : AstNode) (p p2 : Nat)
    (h : parseRun n (PRule.disjL A) cs p = (Except.ok a, p2)) (hS : SafeAt cs r p2) :
    SafeAt cs r p := by
  cases n with
  | zero =>
    rw [show parseRun 0 (PRule.disjL A) cs p = (Except.error "fuel", p) from rfl] at h
    injection h with hx _
    exact Except.noConfusion hx
  | succ n =>
    simp only [parseRun] at h
    rcases hand : consumeToken cs p Token.And with ⟨w, p1⟩
    rw [hand] at h
    cases w with
    | ok u =>
      obtain ⟨h1, _⟩ := consumeToken_ok_inv cs p Token.And u p1 hand
      exact safeAt_of_read cs r p Token.And (nextToken cs p).2
        (Prod.ext_iff.mpr ⟨h1, rfl⟩) (by decide)
    | error e =>
      dsimp only at h
      injection h with _ h2
      have hp1 : p1 = p := consumeToken_restore cs p Token.And e p1 hand
      rw [← hp1, h2]
      exact hS

/-- Fuel monotonicity: a successful parse at some budget is reproduced
verbatim at any larger budget. -/
theorem parseRun_mono (n : Nat) : ∀ m rule cs p a p2, n ≤ m →
    parseRun n rule cs p = (Except.ok a, p2) → parseRun m rule cs p = (Except.ok a, p2) := by
  induction n with
  | zero =>
    intro m rule cs p a p2 _ h
    rw [show parseRun 0 rule cs p = (Except.error "fuel", p) from rfl] at h
    injection h with hx _
    exact Except.noConfusion hx
  | succ n ih =>
    intro m rule cs p a p2 hnm h
    cases m with
    | zero => omega
    | succ m =>
      have hnm2 : n ≤ m := Nat.le_of_succ_le_succ hnm
      cases rule with
      | ifx =>
        simp only [parseRun] at h ⊢
        rcases h1 : consumeToken cs p Token.If with ⟨w1, q1⟩
        rw [h1] at h
        cases w1 with
        | error e => exact h
        | ok u1 =>
          dsimp only at h ⊢
          rcases h2 : consumeToken cs q1 Token.LeftParen with ⟨w2, q2⟩
          rw [h2] at h
          cases w2 with
          | error e => exact h
          | ok u2 =>
            dsimp only at h ⊢
            rcases h3 : parseRun n PRule.cond cs q2 with ⟨w3, q3⟩
            rw [h3] at h
            cases w3 with
            | error e =>
              dsimp only at h
              injection h with hx _
              exact Except.noConfusion hx
            | ok c =>
              dsimp only at h
              rw [ih m PRule.cond cs q2 c q3 hnm2 h3]
              dsimp only
              rcases h4 : consumeToken cs q3 Token.Semicolon with ⟨w4, q4⟩
              rw [h4] at h
              cases w4 with
              | error e => exact h
              | ok u4 =>
                dsimp only at h ⊢
                rcases h5 : parseRun n PRule.expr cs q4 with ⟨w5, q5⟩
                rw [h5] at h
                cases w5 with
                | error e =>
                  dsimp only at h
                  injection h with hx _
                  exact Except.noConfusion hx
                | ok l =>
                  dsimp only at h
                  rw [ih m PRule.expr cs q4 l q5 hnm2 h5]
                  dsimp only
                  rcases h6 : consumeToken cs q5 Token.Semicolon with ⟨w6, q6⟩
                  rw [h6] at h
                  cases w6 with
                  | error e => exact h
                  | ok u6 =>
                    dsimp only at h ⊢
                    rcases h7 : parseRun n PRule.expr cs q6 with ⟨w7, q7⟩
                    rw [h7] at h
                    cases w7 with
                    | error e =>
                      dsimp only at h
                      injection h with hx _
                      exact Except.noConfusion hx
                    | ok rr =>
                      dsimp only at h
                      rw [ih m PRule.expr cs q6 rr q7 hnm2 h7]
                      dsimp only
                      rcases h8 : consumeToken cs q7 Token.RightParen with ⟨w8, q8⟩
                      rw [h8] at h
                      cases w8 with
                      | error e => exact h
                      | ok u8 =>
                        dsimp only at h ⊢
                        exact h
      | cond =>
        simp only [parseRun] at h ⊢
        rcases h1 : parseRun n PRule.disj cs p with ⟨w1, p1⟩
        rw [h1] at h
        cases w1 with
        | error e =>
          dsimp only at h
          injection h with hx _
          exact Except.noConfusion hx
        | ok left =>
          dsimp only at h
          rw [ih m PRule.disj cs p left p1 hnm2 h1]
          dsimp only
          rcases hor : consumeToken cs p1 Token.Or with ⟨w2, q2⟩
          rw [hor] at h
          cases w2 with
          | error e => exact h
          | ok u2 =>
            dsimp only at h ⊢
            rcases h2 : parseRun n PRule.disj cs q2 with ⟨w3, p3⟩
            rw [h2] at h
            cases w3 with
            | error e =>
              dsimp only at h
              injection h with hx _
              exact Except.noConfusion hx
            | ok right =>
              dsimp only at h
              rw [ih m PRule.disj cs q2 right p3 hnm2 h2]
              dsimp only
              exact ih m (PRule.condL (AstNode.Or left right)) cs p3 a p2 hnm2 h
      | condL A =>
        simp only [parseRun] at h ⊢
        rcases hor : consumeToken cs p Token.Or with ⟨w1, q1⟩
        rw [hor] at h
        cases w1 with
        | error e => exact h
        | ok u1 =>
          dsimp only at h ⊢
          rcases h2 : parseRun n PRule.disj cs q1 with ⟨w2, p3⟩
          rw [h2] at h
          cases w2 with
          | error e =>
            dsimp only at h
            injection h with hx _
            exact Except.noConfusion hx
          | ok right =>
            dsimp only at h
            rw [ih m PRule.disj cs q1 right p3 hnm2 h2]
            dsimp only
            exact ih m (PRule.condL (AstNode.Or A right)) cs p3 a p2 hnm2 h
      | disj =>
        simp only [parseRun] at h ⊢
        rcases h1 : parseRun n PRule.conj cs p with ⟨w1, p1⟩
        rw [h1] at h
        cases w1 with
        | error e =>
          dsimp only at h
          injection h with hx _
          exact Except.noConfusion hx
        | ok left =>
          dsimp only at h
          rw [ih m PRule.conj cs p left p1 hnm2 h1]
          dsimp only
          rcases hand : consumeToken cs p1 Token.And with ⟨w2, q2⟩
          rw [hand] at h
          cases w2 with
          | error e => exact h
          | ok u2 =>
            dsimp only at h ⊢
            rcases h2 : parseRun n PRule.conj cs q2 with ⟨w3, p3⟩
            rw [h2] at h
            cases w3 with
            | error e =>
              dsimp only at h
              injection h with hx _
              exact Except.noConfusion hx
            | ok right =>
              dsimp only at h
              rw [ih m PRule.conj cs q2 right p3 hnm2 h2]
              dsimp only
              exact ih m (PRule.disjL (AstNode.And left right)) cs p3 a p2 hnm2 h
      | disjL A =>
        simp only [parseRun] at h ⊢
        rcases hand : consumeToken cs p Token.And with ⟨w1, q1⟩
        rw [hand] at h
        cases w1 with
        | error e => exact h
        | ok u1 =>
          dsimp only at h ⊢
          rcases h2 : parseRun n PRule.conj cs q1 with ⟨w2, p3⟩
          rw [h2] at h
          cases w2 with
          | error e =>
            dsimp only at h
            injection h with hx _
            exact Except.noConfusion hx
          | ok right =>
            dsimp only at h
            rw [ih m PRule.conj cs q1 right p3 hnm2 h2]
            dsimp only
            exact ih m (PRule.disjL (AstNode.And A right)) cs p3 a p2 hnm2 h
      | conj =>
        simp only [parseRun] at h ⊢
        rcases hc : parseComparison cs p with ⟨w1, p1⟩
        rw [hc] at h
        cases w1 with
        | ok node => exact h
        | error e =>
          dsimp only at h ⊢
          rcases hlp : consumeToken cs (setPos cs p1 p) Token.LeftParen with ⟨w2, q2⟩
          rw [hlp] at h
          cases w2 with
          | error e2 => exact h
          | ok u2 =>
            dsimp only at h ⊢
            rcases hcd : parseRun n PRule.cond cs q2 with ⟨w3, q3⟩
            rw [hcd] at h
            cases w3 with
            | error e3 =>
              dsimp only at h
              injection h with hx _
              exact Except.noConfusion hx
            | ok node =>
              dsimp only at h
              rw [ih m PRule.cond cs q2 node q3 hnm2 hcd]
              dsimp only
              rcases hrp : consumeToken cs q3 Token.RightParen with ⟨w4, q4⟩
              rw [hrp] at h
              cases w4 with
              | error e4 => exact h
              | ok u4 =>
                dsimp only at h ⊢
                exact h
      | expr =>
        simp only [parseRun] at h ⊢
        rcases hv : parseValue cs p with ⟨w1, p1⟩
        rw [hv] at h
        cases w1 with
        | ok node => exact h
        | error e =>
          dsimp only at h ⊢
          rcases hif : parseRun n PRule.ifx cs (setPos cs p1 p) with ⟨w2, p3⟩
          rw [hif] at h
          cases w2 with
          | error e2 =>
            dsimp only at h
            injection h with hx _
            exact Except.noConfusion hx
          | ok node =>
            dsimp only at h
            rw [ih m PRule.ifx cs (setPos cs p1 p) node p3 hnm2 hif]
            dsimp only
            exact h

/-- Extension stability of every parser rule: a successful parse over
`cs` is reproduced verbatim over `cs ++ r`.  The `if`-expression rule
needs no side condition (it ends on a stable `)` read); every other
rule needs its final position to be a safe read position, which its
caller establishes from the token it reads there next. -/
theorem parseRun_append (n : Nat) :
    (∀ cs r p a p2, parseRun n PRule.ifx cs p = (Except.ok a, p2) →
      parseRun n PRule.ifx (cs ++ r) p = (Except.ok a, p2)) ∧
    (∀ cs r p a p2, parseRun n PRule.cond cs p = (Except.ok a, p2) → SafeAt cs r p2 →
      parseRun n PRule.cond (cs ++ r) p = (Except.ok a, p2)) ∧
    (∀ cs r A p a p2, parseRun n (PRule.condL A) cs p = (Except.ok a, p2) → SafeAt cs r p2 →
      parseRun n (PRule.condL A) (cs ++ r) p = (Except.ok a, p2)) ∧
    (∀ cs r p a p2, parseRun n PRule.disj cs p = (Except.ok a, p2) → SafeAt cs r p2 →
      parseRun n PRule.disj (cs ++ r) p = (Except.ok a, p2)) ∧
    (∀ cs r A p a p2, parseRun n (PRule.disjL A) cs p = (Except.ok a, p2) → SafeAt cs r p2 →
      parseRun n (PRule.disjL A) (cs ++ r) p = (Except.ok a, p2)) ∧
    (∀ cs r p a p2, parseRun n PRule.conj cs p = (Except.ok a, p2) → SafeAt cs r p2 →
      parseRun n PRule.conj (cs ++ r) p = (Except.ok a, p2)) ∧
    (∀ cs r p a p2, parseRun n PRule.expr cs p = (Except.ok a, p2) → SafeAt cs r p2 →
      parseRun n PRule.expr (cs ++ r) p = (Except.ok a, p2)) := by
  induction n with
  | zero =>
    refine ⟨?_, ?_, ?_, ?_, ?_, ?_, ?_⟩
    · intro cs r p a p2 h
      rw [show parseRun 0 PRule.ifx cs p = (Except.error "fuel", p) from rfl] at h
      injection h with hx _
      exact Except.noConfusion hx
    · intro cs r p a p2 h _
      rw [show parseRun 0 PRule.cond cs p = (Except.error "fuel", p) from rfl] at h
      injection h with hx _
      exact Except.noConfusion hx
    · intro cs r A p a p2 h _
      rw [show parseRun 0 (PRule.condL A) cs p = (Except.error "fuel", p) from rfl] at h
      injection h with hx _
      exact Except.noConfusion hx
    · intro cs r p a p2 h _
      rw [show parseRun 0 PRule.disj cs p = (Except.error "fuel", p) from rfl] at h
      injection h with hx _
      exact Except.noConfusion hx
    · intro cs r A p a p2 h _
      rw [show parseRun 0 (PRule.disjL A) cs p = (Except.error "fuel", p) from rfl] at h
      injection h with hx _
      exact Except.noConfusion hx
    · intro cs r p a p2 h _
      rw [show parseRun 0 PRule.conj cs p = (Except.error "fuel", p) from rfl] at h
      injection h with hx _
      exact Except.noConfusion hx
    · intro cs r p a p2 h _
      rw [show parseRun 0 PRule.expr cs p = (Except.error "fuel", p) from rfl] at h
      injection h with hx _
      exact Except.noConfusion hx
  | succ n ih =>
    obtain ⟨ihIfx, ihCond, ihCondL, ihDisj, ihDisjL, ihConj, ihExpr⟩ := ih
    refine ⟨?_, ?_, ?_, ?_, ?_, ?_, ?_⟩
    · -- if-expression
      intro cs r p a p2 h
      simp only [parseRun] at h ⊢
      rcases h1 : consumeToken cs p Token.If with ⟨w1, q1⟩
      rw [h1] at h
      cases w1 with
      | error e =>
        dsimp only at h
        injection h with hx _
        exact Except.noConfusion hx
      | ok u1 =>
        dsimp only at h
        rw [consumeToken_ok_append cs r p Token.If u1 q1 h1 (by decide)]
        dsimp only
        rcases h2 : consumeToken cs q1 Token.LeftParen with ⟨w2, q2⟩
        rw [h2] at h
        cases w2 with
        | error e =>
          dsimp only at h
          injection h with hx _
          exact Except.noConfusion hx
        | ok u2 =>
          dsimp only at h
          rw [consumeToken_ok_append cs r q1 Token.LeftParen u2 q2 h2 (by decide)]
          dsimp only
          rcases h3 : parseRun n PRule.cond cs q2 with ⟨w3, q3⟩
          rw [h3] at h
          cases w3 with
          | error e =>
            dsimp only at h
            injection h with hx _
            exact Except.noConfusion hx
          | ok c =>
            dsimp only at h
            rcases h4 : consumeToken cs q3 Token.Semicolon with ⟨w4, q4⟩
            rw [h4] at h
            cases w4 with
            | error e =>
              dsimp only at h
              injection h with hx _
              exact Except.noConfusion hx
            | ok u4 =>
              dsimp only at h
              have hS3 : SafeAt cs r q3 :=
                safeAt_of_consume_ok cs r q3 Token.Semicolon u4 q4 h4 (by decide)
              rw [ihCond cs r q2 c q3 h3 hS3]
              dsimp only
              rw [consumeToken_ok_append cs r q3 Token.Semicolon u4 q4 h4 (by decide)]
              dsimp only
              rcases h5 : parseRun n PRule.expr cs q4 with ⟨w5, q5⟩
              rw [h5] at h
              cases w5 with
              | error e =>
                dsimp only at h
                injection h with hx _
                exact Except.noConfusion hx
              | ok l =>
                dsimp only at h
                rcases h6 : consumeToken cs q5 Token.Semicolon with ⟨w6, q6⟩
                rw [h6] at h
                cases w6 with
                | error e =>
                  dsimp only at h
                  injection h with hx _
                  exact Except.noConfusion hx
                | ok u6 =>
                  dsimp only at h
                  have hS5 : SafeAt cs r q5 :=
                    safeAt_of_consume_ok cs r q5 Token.Semicolon u6 q6 h6 (by decide)
                  rw [ihExpr cs r q4 l q5 h5 hS5]
                  dsimp only
                  rw [consumeToken_ok_append cs r q5 Token.Semicolon u6 q6 h6 (by decide)]
                  dsimp only
                  rcases h7 : parseRun n PRule.expr cs q6 with ⟨w7, q7⟩
                  rw [h7] at h
                  cases w7 with
                  | error e =>
                    dsimp only at h
                    injection h with hx _
                    exact Except.noConfusion hx
                  | ok rr =>
                    dsimp only at h
                    rcases h8 : consumeToken cs q7 Token.RightParen with ⟨w8, q8⟩
                    rw [h8] at h
                    cases w8 with
                    | error e =>
                      dsimp only at h
                      injection h with hx _
                      exact Except.noConfusion hx
                    | ok u8 =>
                      dsimp only at h
                      have hS7 : SafeAt cs r q7 :=
                        safeAt_of_consume_ok cs r q7 Token.RightParen u8 q8 h8 (by decide)
                      rw [ihExpr cs r q6 rr q7 h7 hS7]
                      dsimp only
                      rw [consumeToken_ok_append cs r q7 Token.RightParen u8 q8 h8 (by decide)]
                      dsimp only
                      exact h
    · -- condition
      intro cs r p a p2 h hS
      simp only [parseRun] at h ⊢
      rcases h1 : parseRun n PRule.disj cs p with ⟨w1, p1⟩
      rw [h1] at h
      cases w1 with
      | error e =>
        dsimp only at h
        injection h with hx _
        exact Except.noConfusion hx
      | ok left =>
        dsimp only at h
        rcases hor : consumeToken cs p1 Token.Or with ⟨w2, q2⟩
        rw [hor] at h
        cases w2 with
        | error e =>
          dsimp only at h
          have hq2 : q2 = p1 := consumeToken_restore cs p1 Token.Or e q2 hor
          rw [hq2, setPos_self] at h
          injection h with hx1 hx2
          injection hx1 with hxa
          have hS1 : SafeAt cs r p1 := by
            rw [hx2]
            exact hS
          rw [ihDisj cs r p left p1 h1 hS1]
          dsimp only
          rw [consumeToken_fail_append cs r p1 Token.Or e q2 hor hS1]
          dsimp only
          rw [setPos_self, hxa, hx2]
        | ok u2 =>
          dsimp only at h
          have hS1 : SafeAt cs r p1 :=
            safeAt_of_consume_ok cs r p1 Token.Or u2 q2 hor (by decide)
          rcases h2 : parseRun n PRule.disj cs q2 with ⟨w3, p3⟩
          rw [h2] at h
          cases w3 with
          | error e =>
            dsimp only at h
            injection h with hx _
            exact Except.noConfusion hx
          | ok right =>
            dsimp only at h
            have hS3 : SafeAt cs r p3 :=
              condL_entry_safe n cs r (AstNode.Or left right) a p3 p2 h hS
            rw [ihDisj cs r p left p1 h1 hS1]
            dsimp only
            rw [consumeToken_ok_append cs r p1 Token.Or u2 q2 hor (by decide)]
            dsimp only
            rw [ihDisj cs r q2 right p3 h2 hS3]
            dsimp only
            exact ihCondL cs r (AstNode.Or left right) p3 a p2 h hS
    · -- condL (running or-loop)
      intro cs r A p a p2 h hS
      simp only [parseRun] at h ⊢
      rcases hor : consumeToken cs p Token.Or with ⟨w1, q1⟩
      rw [hor] at h
      cases w1 with
      | error e =>
        dsimp only at h
        injection h with hx1 hx2
        injection hx1 with hxa
        have hq1 : q1 = p := consumeToken_restore cs p Token.Or e q1 hor
        have hp2 : p = p2 := hq1.symm.trans hx2
        have hSp : SafeAt cs r p := by
          rw [hp2]
          exact hS
        rw [consumeToken_fail_append cs r p Token.Or e q1 hor hSp]
        dsimp only
        rw [hxa, hp2]
      | ok u1 =>
        dsimp only at h
        rcases h2 : parseRun n PRule.disj cs q1 with ⟨w2, p3⟩
        rw [h2] at h
        cases w2 with
        | error e =>
          dsimp only at h
          injection h with hx _
          exact Except.noConfusion hx
        | ok right =>
          dsimp only at h
          have hS3 : SafeAt cs r p3 :=
            condL_entry_safe n cs r (AstNode.Or A right) a p3 p2 h hS
          rw [consumeToken_ok_append cs r p Token.Or u1 q1 hor (by decide)]
          dsimp only
          rw [ihDisj cs r q1 right p3 h2 hS3]
          dsimp only
          exact ihCondL cs r (AstNode.Or A right) p3 a p2 h hS
    · -- disjunction
      intro cs r p a p2 h hS
      simp only [parseRun] at h ⊢
      rcases h1 : parseRun n PRule.conj cs p with ⟨w1, p1⟩
      rw [h1] at h
      cases w1 with
      | error e =>
        dsimp only at h
        injection h with hx _
        exact Except.noConfusion hx
      | ok left =>
        dsimp only at h
        rcases hand : consumeToken cs p1 Token.And with ⟨w2, q2⟩
        rw [hand] at h
        cases w2 with
        | error e =>
          dsimp only at h
          have hq2 : q2 = p1 := consumeToken_restore cs p1 Token.And e q2 hand
          rw [hq2, setPos_self] at h
          injection h with hx1 hx2
          injection hx1 with hxa
          have hS1 : SafeAt cs r p1 := by
            rw [hx2]
            exact hS
          rw [ihConj cs r p left p1 h1 hS1]
          dsimp only
          rw [consumeToken_fail_append cs r p1 Token.And e q2 hand hS1]
          dsimp only
          rw [setPos_self, hxa, hx2]
        | ok u2 =>
          dsimp only at h
          have hS1 : SafeAt cs r p1 :=
            safeAt_of_consume_ok cs r p1 Token.And u2 q2 hand (by decide)
          rcases h2 : parseRun n PRule.conj cs q2 with ⟨w3, p3⟩
          rw [h2] at h
          cases w3 with
          | error e =>
            dsimp only at h
            injection h with hx _
            exact Except.noConfusion hx
          | ok right =>
            dsimp only at h
            have hS3 : SafeAt cs r p3 :=
              disjL_entry_safe n cs r (AstNode.And left right) a p3 p2 h hS
            rw [ihConj cs r p left p1 h1 hS1]
            dsimp only
            rw [consumeToken_ok_append cs r p1 Token.And u2 q2 hand (by decide)]
            dsimp only
            rw [ihConj cs r q2 right p3 h2 hS3]
            dsimp only
            exact ihDisjL cs r (AstNode.And left right) p3 a p2 h hS
    · -- disjL (running and-loop)
      intro cs r A p a p2 h hS
      simp only [parseRun] at h ⊢
      rcases hand : consumeToken cs p Token.And with ⟨w1, q1⟩
      rw [hand] at h
      cases w1 with
      | error e =>
        dsimp only at h
        injection h with hx1 hx2
        injection hx1 with hxa
        have hq1 : q1 = p := consumeToken_restore cs p Token.And e q1 hand
        have hp2 : p = p2 := hq1.symm.trans hx2
        have hSp : SafeAt cs r p := by
          rw [hp2]
          exact hS
        rw [consumeToken_fail_append cs r p Token.And e q1 hand hSp]
        dsimp only
        rw [hxa, hp2]
      | ok u1 =>
        dsimp only at h
        rcases h2 : parseRun n PRule.conj cs q1 with ⟨w2, p3⟩
        rw [h2] at h
        cases w2 with
        | error e =>
          dsimp only at h
          injection h with hx _
          exact Except.noConfusion hx
        | ok right =>
          dsimp only at h
          have hS3 : SafeAt cs r p3 :=
            disjL_entry_safe n cs r (AstNode.And A right) a p3 p2 h hS
          rw [consumeToken_ok_append cs r p Token.And u1 q1 hand (by decide)]
          dsimp only
          rw [ihConj cs r q1 right p3 h2 hS3]
          dsimp only
          exact ihDisjL cs r (AstNode.And A right) p3 a p2 h hS
    · -- conjunction
      intro cs r p a p2 h hS
      simp only [parseRun] at h ⊢
      rcases hc : parseComparison cs p with ⟨w1, p1⟩
      rw [hc] at h
      cases w1 with
      | ok node =>
        dsimp only at h
        injection h with hx1 hx2
        injection hx1 with hxa
        have hlt : p1 < cs.length := by
          rw [hx2]
          exact hS.pos_lt
        rw [parseComparison_ok_append cs r p node p1 hc hlt]
        dsimp only
        rw [hxa, hx2]
      | error e =>
        dsimp only at h
        have hsp : setPos cs p1 p = p := by
          apply setPos_back
          intro hend
          obtain ⟨m0, hm0⟩ := parseComparison_at_end cs p hend
          rw [hm0] at hc
          injection hc with _ hc2
          exact hc2.symm
        rw [hsp] at h
        rcases hlp : consumeToken cs p Token.LeftParen with ⟨w2, q2⟩
        rw [hlp] at h
        cases w2 with
        | error e2 =>
          dsimp only at h
          injection h with hx _
          exact Except.noConfusion hx
        | ok u2 =>
          dsimp only at h
          obtain ⟨hlp1, _⟩ := consumeToken_ok_inv cs p Token.LeftParen u2 q2 hlp
          rcases hcd : parseRun n PRule.cond cs q2 with ⟨w3, q3⟩
          rw [hcd] at h
          cases w3 with
          | error e3 =>
            dsimp only at h
            injection h with hx _
            exact Except.noConfusion hx
          | ok node =>
            dsimp only at h
            rcases hrp : consumeToken cs q3 Token.RightParen with ⟨w4, q4⟩
            rw [hrp] at h
            cases w4 with
            | error e4 =>
              dsimp only at h
              injection h with hx _
              exact Except.noConfusion hx
            | ok u4 =>
              dsimp only at h
              have hS3 : SafeAt cs r q3 :=
                safeAt_of_consume_ok cs r q3 Token.RightParen u4 q4 hrp (by decide)
              have hnlp : nextToken (cs ++ r) p = nextToken cs p :=
                (safeAt_of_read cs r p Token.LeftParen (nextToken cs p).2
                  (Prod.ext_iff.mpr ⟨hlp1, rfl⟩) (by decide)).1
              obtain ⟨mx, hmx⟩ := parseComparison_fail_lparen (cs ++ r) p
                (by rw [hnlp]; exact hlp1)
              rw [hmx]
              dsimp only
              rw [setPos_self]
              rw [consumeToken_ok_append cs r p Token.LeftParen u2 q2 hlp (by decide)]
              dsimp only
              rw [ihCond cs r q2 node q3 hcd hS3]
              dsimp only
              rw [consumeToken_ok_append cs r q3 Token.RightParen u4 q4 hrp (by decide)]
              dsimp only
              exact h
    · -- expression
      intro cs r p a p2 h hS
      simp only [parseRun] at h ⊢
      rcases hv : parseValue cs p with ⟨w1, p1⟩
      rw [hv] at h
      cases w1 with
      | ok node =>
        dsimp only at h
        injection h with hx1 hx2
        injection hx1 with hxa
        have hlt : p1 < cs.length := by
          rw [hx2]
          exact hS.pos_lt
        rw [parseValue_ok_append cs r p node p1 hv hlt]
        dsimp only
        rw [hxa, hx2]
      | error e =>
        dsimp only at h
        have hp1 : p1 = p := parseValue_restore cs p e p1 hv
        rw [hp1, setPos_self] at h
        rcases hif : parseRun n PRule.ifx cs p with ⟨w2, p3⟩
        rw [hif] at h
        cases w2 with
        | error e2 =>
          dsimp only at h
          injection h with hx _
          exact Except.noConfusion hx
        | ok node =>
          dsimp only at h
          injection h with hx1 hx2
          injection hx1 with hxa
          have hIf : (nextToken cs p).1 = Token.If := parseRun_ifx_ok_token n cs p node p3 hif
          have hSp : SafeAt cs r p := safeAt_of_read cs r p Token.If (nextToken cs p).2
            (Prod.ext_iff.mpr ⟨hIf, rfl⟩) (by decide)
          rw [parseValue_fail_append cs r p e p1 (by rw [hp1] at hv ⊢; exact hv) hSp]
          dsimp only
          rw [setPos_self]
          rw [ihIfx cs r p node p3 hif]
          dsimp only
          rw [hxa, hx2]

/-! ## C9: trailing garbage is silently accepted -/

/-- C9: unconsumed input after a complete statement is not checked:
whenever `parse` succeeds on a text with AST `t`, it also succeeds on
that text followed by any suffix `r` and returns the same AST `t`. -/
theorem parse_accepts_trailing_garbage (cs r : List Char) (t : AstNode)
    (h : parse cs = Except.ok t) : parse (cs ++ r) = Except.ok t := by
  unfold parse parseStatement parseIfExpression at h ⊢
  rcases hps : parseRun (parseFuel cs) PRule.ifx cs 0 with ⟨w, p2⟩
  rw [hps] at h
  dsimp only at h
  cases w with
  | error e => exact Except.noConfusion h
  | ok a =>
    injection h with ha
    have hext := (parseRun_append (parseFuel cs)).1 cs r 0 a p2 hps
    have hfl : parseFuel cs ≤ parseFuel (cs ++ r) := by
      unfold parseFuel
      rw [List.length_append]
      omega
    have hm := parseRun_mono (parseFuel cs) (parseFuel (cs ++ r)) PRule.ifx (cs ++ r) 0 a p2
      hfl hext
    rw [hm]
    dsimp only
    rw [ha]

/-- Witness for C9: the text `if(1=null;1;2)` followed by the garbage
`xyz` parses to the same AST as the text alone. -/
theorem parse_accepts_trailing_garbage_witness :
    parse ("if(1=null;1;2)".toList ++ "xyz".toList) =
      Except.ok (AstNode.If (AstNode.Eq (AstNode.Number 1) AstNode.Null)
        (AstNode.Number 1) (AstNode.Number 2)) :=
  parse_accepts_trailing_garbage ("if(1=null;1;2)".toList) ("xyz".toList)
    (AstNode.If (AstNode.Eq (AstNode.Number 1) AstNode.Null)
      (AstNode.Number 1) (AstNode.Number 2)) rfl

end Secel
